import Mathlib

/-
  Verification development for the majjit foldable tree-log engine.

  The Rust sources (src/log_tree.rs, src/model.rs, src/command_tree.rs,
  src/update.rs, src/ansi.rs) are shallowly embedded below: in-place
  mutation becomes explicit state passing, fallible operations return
  Option (none models a propagated anyhow error or a panic), and ratatui
  Text values are modelled as plain line lists (styling and colors are
  dropped; a Text is its list of lines, a line its plain character
  content).  External collaborators (the jj subprocess) are parameters:
  a load result is passed in as an Option value.
-/

/-- A ratatui Text, reduced to its list of display lines (content only). -/
abbrev TextM := List String

/-- `type TreePosition = Vec<usize>` from src/log_tree.rs. -/
abbrev TreePosition := List Nat

/-- `COMMIT_OR_TEXT_IDX` from src/log_tree.rs. -/
def COMMIT_OR_TEXT_IDX : Nat := 0

/-- `FILE_DIFF_IDX` from src/log_tree.rs. -/
def FILE_DIFF_IDX : Nat := 1

/-- `DIFF_HUNK_IDX` from src/log_tree.rs. -/
def DIFF_HUNK_IDX : Nat := 2

/-- `DIFF_HUNK_LINE_IDX` from src/log_tree.rs. -/
def DIFF_HUNK_LINE_IDX : Nat := 3

/-- Character-list core of `strip_ansi` (src/ansi.rs): delete every
substring matching the regex ESC `[` `[0-9;]*` `m`.  The fuel only makes
the recursion structural; each step strictly shortens the list, so a fuel
of `length + 1` is never exhausted. -/
def stripAnsiGo : Nat → List Char → List Char
  | 0, cs => cs
  | _ + 1, [] => []
  | fuel + 1, '\x1b' :: '[' :: rest =>
    let ds := rest.takeWhile (fun c => c.isDigit || c = ';')
    match rest.drop ds.length with
    | 'm' :: tail => stripAnsiGo fuel tail
    | _ => '\x1b' :: stripAnsiGo fuel ('[' :: rest)
  | fuel + 1, c :: rest => c :: stripAnsiGo fuel rest

/-- `strip_ansi` from src/ansi.rs, on strings. -/
def stripAnsiStr (s : String) : String :=
  String.mk (stripAnsiGo (s.toList.length + 1) s.toList)

/-- `into_text` (ansi_to_tui), reduced to line splitting of the plain text. -/
def intoText (s : String) : TextM :=
  (stripAnsiStr s).splitOn "\n"

/-- `fold_symbol` from src/log_tree.rs (style dropped). -/
def fold_symbol (unfolded : Bool) : String :=
  if unfolded then "▾" else "▸"

/-- `enum FileDiffStatus` from src/log_tree.rs. -/
inductive FileDiffStatus
  | Modified
  | Added
  | Deleted
  | Renamed
  | Copied
deriving DecidableEq, Repr

/-- The `FromStr` impl for `FileDiffStatus`, keyed on the status letter. -/
def statusOfChar : Char → Option FileDiffStatus
  | 'M' => some .Modified
  | 'A' => some .Added
  | 'D' => some .Deleted
  | 'R' => some .Renamed
  | 'C' => some .Copied
  | _ => none

/-- The `Display` impl for `FileDiffStatus` from src/log_tree.rs. -/
def FileDiffStatus.display : FileDiffStatus → String
  | .Modified => "modified"
  | .Added => "new file"
  | .Deleted => "deleted "
  | .Renamed => "renamed "
  | .Copied => "copied  "

/-- `struct DiffHunkLine` from src/log_tree.rs. -/
structure DiffHunkLine where
  pretty_string : String
  graph_indent : String
  flat_log_idx : Nat
deriving DecidableEq, Repr

/-- `struct DiffHunk` from src/log_tree.rs. -/
structure DiffHunk where
  graph_indent : String
  unfolded : Bool
  diff_hunk_lines : List DiffHunkLine
  red_start : Nat
  red_end : Nat
  green_start : Nat
  green_end : Nat
  flat_log_idx : Nat
deriving DecidableEq, Repr

/-- `struct FileDiff` from src/log_tree.rs.  Fields used only for jj
command construction are kept; style-only data is dropped with the
styling model. -/
structure FileDiff where
  change_id : String
  path : String
  description : String
  status : FileDiffStatus
  graph_indent : String
  unfolded : Bool
  loaded : Bool
  diff_hunks : List DiffHunk
  flat_log_idx : Nat
deriving DecidableEq, Repr

/-- `struct Commit` from src/log_tree.rs.  The fields that only feed
color/style choices or jj command arguments (conflict flag, commit id,
empty flag, first description line) are dropped together with styling. -/
structure Commit where
  change_id : String
  current_working_copy : Bool
  symbol : String
  line1_graph_chars : String
  line1_graph_chars_part2 : String
  line2_graph_chars : String
  pretty_line1 : String
  pretty_line2 : String
  graph_indent : String
  unfolded : Bool
  loaded : Bool
  file_diffs : List FileDiff
  flat_log_idx : Nat
deriving DecidableEq, Repr

/-- `struct InfoText` from src/log_tree.rs. -/
structure InfoText where
  pretty_string : String
  flat_log_idx : Nat
deriving DecidableEq, Repr

/-- `enum CommitOrText` from src/log_tree.rs. -/
inductive CommitOrText
  | commit : Commit → CommitOrText
  | infoText : InfoText → CommitOrText
deriving DecidableEq, Repr

/-- `struct JjLog` from src/log_tree.rs. -/
structure JjLog where
  log_tree : List CommitOrText
deriving DecidableEq, Repr

/-- The `&mut dyn LogTreeNode` trait object returned by `get_tree_node`,
as a sum over the five node kinds. -/
inductive LogNode
  | commit : Commit → LogNode
  | infoText : InfoText → LogNode
  | fileDiff : FileDiff → LogNode
  | diffHunk : DiffHunk → LogNode
  | diffHunkLine : DiffHunkLine → LogNode
deriving DecidableEq, Repr

/-- `DiffHunkLine::render` (bold styling of plus and minus lines dropped). -/
def DiffHunkLine.render (l : DiffHunkLine) : TextM :=
  [l.graph_indent ++ "  " ++ (intoText l.pretty_string).headD ""]

/-- `DiffHunk::render` from src/log_tree.rs: the `@@ -a,b +c,d @@` header
line, with the counts derived as `end - start + 1` when `end != 0`, else 0. -/
def DiffHunk.render (h : DiffHunk) : TextM :=
  let red_num_lines := if h.red_end = 0 then 0 else h.red_end - h.red_start + 1
  let green_num_lines := if h.green_end = 0 then 0 else h.green_end - h.green_start + 1
  [h.graph_indent ++ fold_symbol h.unfolded ++ " " ++
    "@@ -" ++ toString h.red_start ++ "," ++ toString red_num_lines ++
    " +" ++ toString h.green_start ++ "," ++ toString green_num_lines ++ " @@"]

/-- `FileDiff::render` from src/log_tree.rs. -/
def FileDiff.render (fd : FileDiff) : TextM :=
  [fd.graph_indent ++ fold_symbol fd.unfolded ++ " " ++
    fd.status.display ++ "  " ++ fd.description]

/-- `Commit::render` from src/log_tree.rs: one line, or two when
`pretty_line2` is nonempty. -/
def Commit.render (c : Commit) : TextM :=
  let line1 := c.line1_graph_chars ++ c.symbol ++ c.line1_graph_chars_part2 ++
    " " ++ fold_symbol c.unfolded ++ " " ++ (intoText c.pretty_line1).headD ""
  if c.pretty_line2 = "" then [line1]
  else [line1, c.line2_graph_chars ++ " " ++ (intoText c.pretty_line2).headD ""]

/-- `InfoText::render` from src/log_tree.rs. -/
def InfoText.render (t : InfoText) : TextM :=
  intoText t.pretty_string

/-- Dispatch of `LogTreeNode::render`. -/
def LogNode.render : LogNode → TextM
  | .commit c => c.render
  | .infoText t => t.render
  | .fileDiff fd => fd.render
  | .diffHunk h => h.render
  | .diffHunkLine l => l.render

/-- Dispatch of `LogTreeNode::flat_log_idx`. -/
def LogNode.flat_log_idx : LogNode → Nat
  | .commit c => c.flat_log_idx
  | .infoText t => t.flat_log_idx
  | .fileDiff fd => fd.flat_log_idx
  | .diffHunk h => h.flat_log_idx
  | .diffHunkLine l => l.flat_log_idx

/-- Dispatch of `LogTreeNode::children`. -/
def LogNode.children : LogNode → List LogNode
  | .commit c => c.file_diffs.map .fileDiff
  | .infoText _ => []
  | .fileDiff fd => fd.diff_hunks.map .diffHunk
  | .diffHunk h => h.diff_hunk_lines.map .diffHunkLine
  | .diffHunkLine _ => []

/-- `CommitOrText::flat_log_idx` from src/log_tree.rs. -/
def CommitOrText.flat_log_idx : CommitOrText → Nat
  | .commit c => c.flat_log_idx
  | .infoText t => t.flat_log_idx

/-- `DiffHunkLine::flatten`: record the emit index, push the rendering and
the address. -/
def DiffHunkLine.flatten (l : DiffHunkLine) (tree_pos : TreePosition)
    (log_list : List TextM) (tree_positions : List TreePosition) :
    DiffHunkLine × List TextM × List TreePosition :=
  ({ l with flat_log_idx := log_list.length },
    log_list ++ [l.render], tree_positions ++ [tree_pos])

/-- The `for (idx, line) in enumerate` loop inside `DiffHunk::flatten`. -/
def DiffHunk.flattenLines :
    List DiffHunkLine → TreePosition → Nat → List TextM → List TreePosition →
    List DiffHunkLine × List TextM × List TreePosition
  | [], _, _, ll, ps => ([], ll, ps)
  | l :: rest, pos, i, ll, ps =>
    let r1 := l.flatten (pos ++ [i]) ll ps
    let r2 := DiffHunk.flattenLines rest pos (i + 1) r1.2.1 r1.2.2
    (r1.1 :: r2.1, r2.2.1, r2.2.2)

/-- `DiffHunk::flatten` from src/log_tree.rs. -/
def DiffHunk.flatten (h : DiffHunk) (tree_pos : TreePosition)
    (log_list : List TextM) (tree_positions : List TreePosition) :
    DiffHunk × List TextM × List TreePosition :=
  let h1 := { h with flat_log_idx := log_list.length }
  let ll1 := log_list ++ [h1.render]
  let ps1 := tree_positions ++ [tree_pos]
  if !h1.unfolded then (h1, ll1, ps1)
  else
    let r := DiffHunk.flattenLines h1.diff_hunk_lines tree_pos 0 ll1 ps1
    ({ h1 with diff_hunk_lines := r.1 }, r.2.1, r.2.2)

/-- The `for (idx, hunk) in enumerate` loop inside `FileDiff::flatten`. -/
def FileDiff.flattenHunks :
    List DiffHunk → TreePosition → Nat → List TextM → List TreePosition →
    List DiffHunk × List TextM × List TreePosition
  | [], _, _, ll, ps => ([], ll, ps)
  | h :: rest, pos, i, ll, ps =>
    let r1 := h.flatten (pos ++ [i]) ll ps
    let r2 := FileDiff.flattenHunks rest pos (i + 1) r1.2.1 r1.2.2
    (r1.1 :: r2.1, r2.2.1, r2.2.2)

/-- `FileDiff::flatten` from src/log_tree.rs. -/
def FileDiff.flatten (fd : FileDiff) (tree_pos : TreePosition)
    (log_list : List TextM) (tree_positions : List TreePosition) :
    FileDiff × List TextM × List TreePosition :=
  let fd1 := { fd with flat_log_idx := log_list.length }
  let ll1 := log_list ++ [fd1.render]
  let ps1 := tree_positions ++ [tree_pos]
  if !fd1.unfolded then (fd1, ll1, ps1)
  else
    let r := FileDiff.flattenHunks fd1.diff_hunks tree_pos 0 ll1 ps1
    ({ fd1 with diff_hunks := r.1 }, r.2.1, r.2.2)

/-- The `for (idx, file_diff) in enumerate` loop inside `Commit::flatten`. -/
def Commit.flattenFileDiffs :
    List FileDiff → TreePosition → Nat → List TextM → List TreePosition →
    List FileDiff × List TextM × List TreePosition
  | [], _, _, ll, ps => ([], ll, ps)
  | fd :: rest, pos, i, ll, ps =>
    let r1 := fd.flatten (pos ++ [i]) ll ps
    let r2 := Commit.flattenFileDiffs rest pos (i + 1) r1.2.1 r1.2.2
    (r1.1 :: r2.1, r2.2.1, r2.2.2)

/-- `Commit::flatten` from src/log_tree.rs. -/
def Commit.flatten (c : Commit) (tree_pos : TreePosition)
    (log_list : List TextM) (tree_positions : List TreePosition) :
    Commit × List TextM × List TreePosition :=
  let c1 := { c with flat_log_idx := log_list.length }
  let ll1 := log_list ++ [c1.render]
  let ps1 := tree_positions ++ [tree_pos]
  if !c1.unfolded then (c1, ll1, ps1)
  else
    let r := Commit.flattenFileDiffs c1.file_diffs tree_pos 0 ll1 ps1
    ({ c1 with file_diffs := r.1 }, r.2.1, r.2.2)

/-- `InfoText::flatten` from src/log_tree.rs. -/
def InfoText.flatten (t : InfoText) (tree_pos : TreePosition)
    (log_list : List TextM) (tree_positions : List TreePosition) :
    InfoText × List TextM × List TreePosition :=
  ({ t with flat_log_idx := log_list.length },
    log_list ++ [t.render], tree_positions ++ [tree_pos])

/-- `CommitOrText::flatten` from src/log_tree.rs. -/
def CommitOrText.flatten (t : CommitOrText) (tree_pos : TreePosition)
    (log_list : List TextM) (tree_positions : List TreePosition) :
    CommitOrText × List TextM × List TreePosition :=
  match t with
  | .commit c =>
    let r := c.flatten tree_pos log_list tree_positions
    (.commit r.1, r.2.1, r.2.2)
  | .infoText it =>
    let r := it.flatten tree_pos log_list tree_positions
    (.infoText r.1, r.2.1, r.2.2)

/-- The `for (idx, commit_or_text) in enumerate` loop inside
`JjLog::flatten_log`. -/
def JjLog.flattenTops :
    List CommitOrText → Nat → List TextM → List TreePosition →
    List CommitOrText × List TextM × List TreePosition
  | [], _, ll, ps => ([], ll, ps)
  | t :: rest, i, ll, ps =>
    let r1 := t.flatten [i] ll ps
    let r2 := JjLog.flattenTops rest (i + 1) r1.2.1 r1.2.2
    (r1.1 :: r2.1, r2.2.1, r2.2.2)

/-- `JjLog::flatten_log` from src/log_tree.rs: returns the updated tree
(the in-place `flat_log_idx` writes) plus the item and address lists. -/
def JjLog.flatten_log (log : JjLog) : JjLog × List TextM × List TreePosition :=
  let r := JjLog.flattenTops log.log_tree 0 [] []
  (JjLog.mk r.1, r.2.1, r.2.2)

/-- Tail of `JjLog::get_tree_node` below a `DiffHunk`: components past
`DIFF_HUNK_LINE_IDX` are never read by the source, hence ignored. -/
def DiffHunk.resolve (h : DiffHunk) : List Nat → Option LogNode
  | [] => some (.diffHunk h)
  | i :: _ => (h.diff_hunk_lines[i]?).map .diffHunkLine

/-- Tail of `JjLog::get_tree_node` below a `FileDiff`: bails when the
file diff's hunks are not loaded. -/
def FileDiff.resolve (fd : FileDiff) : List Nat → Option LogNode
  | [] => some (.fileDiff fd)
  | i :: rest =>
    if fd.loaded then (fd.diff_hunks[i]?).bind (fun h => h.resolve rest) else none

/-- Tail of `JjLog::get_tree_node` below a `Commit`: bails when the
commit's file diffs are not loaded. -/
def Commit.resolve (c : Commit) : List Nat → Option LogNode
  | [] => some (.commit c)
  | i :: rest =>
    if c.loaded then (c.file_diffs[i]?).bind (fun fd => fd.resolve rest) else none

/-- Tail of `JjLog::get_tree_node` below a top-level entry: an `InfoText`
is returned no matter how much of the address remains. -/
def CommitOrText.resolve : CommitOrText → List Nat → Option LogNode
  | .infoText t, _ => some (.infoText t)
  | .commit c, rest => c.resolve rest

/-- `JjLog::get_tree_node` from src/log_tree.rs; `none` models both the
out-of-bounds index panic and the unloaded-children bail. -/
def JjLog.get_tree_node (log : JjLog) : TreePosition → Option LogNode
  | [] => none
  | i :: rest => (log.log_tree[i]?).bind (fun t => t.resolve rest)

/-- `get_parent_tree_position` from src/log_tree.rs. -/
def get_parent_tree_position (tree_pos : TreePosition) : Option TreePosition :=
  if 1 < tree_pos.length then some tree_pos.dropLast else none

/-- The recursive core of `Model::select_next_sibling_node` (src/model.rs):
from the last child it recurses one level up; otherwise it selects the
sibling at `min (idx + 1) (len - 1)`; at the root it clamps against the
top-level entry list. -/
def nextSibGoFuel (log : JjLog) : Nat → TreePosition → Option Nat
  | 0, _ => none
  | fuel + 1, pos =>
    let idx := pos.getLastD 0
    if 1 < pos.length then
      match log.get_tree_node pos.dropLast with
      | none => none
      | some parentNode =>
        let children := parentNode.children
        if idx = children.length - 1 then nextSibGoFuel log fuel pos.dropLast
        else (children[min (idx + 1) (children.length - 1)]?).map LogNode.flat_log_idx
    else
      (log.log_tree[min (idx + 1) (log.log_tree.length - 1)]?).map CommitOrText.flat_log_idx

/-- The recursion with its fuel set to the address length plus one: each
recursive step drops the last address component, so the fuel is never
exhausted. -/
def nextSibGo (log : JjLog) (pos : TreePosition) : Option Nat :=
  nextSibGoFuel log (pos.length + 1) pos

/-- `Model::select_next_sibling_node` from src/model.rs: a maximum-depth
address is first replaced by its parent, then the sibling recursion runs.
The returned value is the newly selected flat index (`none` models a
propagated error). -/
def Model.select_next_sibling_node (log : JjLog) (tree_pos : TreePosition) : Option Nat :=
  let pos := if tree_pos.length = DIFF_HUNK_LINE_IDX + 1 then tree_pos.dropLast else tree_pos
  nextSibGo log pos

/-- `Model::select_prev_sibling_node` from src/model.rs.  Note the source
contains no recursive call: a maximum-depth address selects its parent
hunk and returns, and a first child selects its parent. -/
def Model.select_prev_sibling_node (log : JjLog) (tree_pos : TreePosition) : Option Nat :=
  if tree_pos.length = DIFF_HUNK_LINE_IDX + 1 then
    (log.get_tree_node tree_pos.dropLast).map LogNode.flat_log_idx
  else
    let idx := tree_pos.getLastD 0
    if 1 < tree_pos.length then
      match log.get_tree_node tree_pos.dropLast with
      | none => none
      | some parentNode =>
        if idx = 0 then some parentNode.flat_log_idx
        else ((parentNode.children)[idx - 1]?).map LogNode.flat_log_idx
    else
      (log.log_tree[idx - 1]?).map CommitOrText.flat_log_idx

/-- `DiffHunkLine::toggle_fold` from src/log_tree.rs: a no-op. -/
def DiffHunkLine.toggle_fold (l : DiffHunkLine) : DiffHunkLine := l

/-- `InfoText::toggle_fold` from src/log_tree.rs: a no-op. -/
def InfoText.toggle_fold (t : InfoText) : InfoText := t

/-- `DiffHunk::toggle_fold` from src/log_tree.rs. -/
def DiffHunk.toggle_fold (h : DiffHunk) : DiffHunk :=
  { h with unfolded := !h.unfolded }

/-- `Commit::toggle_fold` from src/log_tree.rs.  The external
`FileDiff::load_all` call is passed in as `load_result` (`none` = load
failure).  The Bool is `false` when the source returns `Err`; note the
fold flip happens before the fallible load and survives a failure. -/
def Commit.toggle_fold (c : Commit) (load_result : Option (List FileDiff)) :
    Commit × Bool :=
  let c1 := { c with unfolded := !c.unfolded }
  if !c1.unfolded then (c1, true)
  else if !c1.loaded then
    match load_result with
    | none => (c1, false)
    | some file_diffs => ({ c1 with file_diffs := file_diffs, loaded := true }, true)
  else (c1, true)

/-- `FileDiff::toggle_fold` from src/log_tree.rs, with the external
`DiffHunk::load_all` call passed in as `load_result`. -/
def FileDiff.toggle_fold (fd : FileDiff) (load_result : Option (List DiffHunk)) :
    FileDiff × Bool :=
  let fd1 := { fd with unfolded := !fd.unfolded }
  if !fd1.loaded then
    match load_result with
    | none => (fd1, false)
    | some diff_hunks => ({ fd1 with diff_hunks := diff_hunks, loaded := true }, true)
  else (fd1, true)

/-- `JjLog::toggle_fold` from src/log_tree.rs: the address is truncated to
`DIFF_HUNK_IDX + 1` components, the node is fetched and toggled in place,
and the node's `flat_log_idx` is returned.  The result keeps the mutated
tree even when the toggle's load fails (`none` index models the `Err`). -/
def JjLog.toggle_fold (log : JjLog) (commitLoad : Option (List FileDiff))
    (fileDiffLoad : Option (List DiffHunk)) (tree_pos : TreePosition) :
    JjLog × Option Nat :=
  let pos := tree_pos.take (DIFF_HUNK_IDX + 1)
  match pos with
  | [] => (log, none)
  | i0 :: rest =>
    match log.log_tree[i0]? with
    | none => (log, none)
    | some (.infoText t) => (log, some t.toggle_fold.flat_log_idx)
    | some (.commit c) =>
      match rest with
      | [] =>
        let r := c.toggle_fold commitLoad
        (JjLog.mk (log.log_tree.set i0 (.commit r.1)),
          if r.2 then some r.1.flat_log_idx else none)
      | i1 :: rest1 =>
        if c.loaded then
          match c.file_diffs[i1]? with
          | none => (log, none)
          | some fd =>
            match rest1 with
            | [] =>
              let r := fd.toggle_fold fileDiffLoad
              (JjLog.mk (log.log_tree.set i0
                  (.commit { c with file_diffs := c.file_diffs.set i1 r.1 })),
                if r.2 then some r.1.flat_log_idx else none)
            | i2 :: _ =>
              if fd.loaded then
                match fd.diff_hunks[i2]? with
                | none => (log, none)
                | some h =>
                  let h2 := h.toggle_fold
                  let fd2 := { fd with diff_hunks := fd.diff_hunks.set i2 h2 }
                  let c2 := { c with file_diffs := c.file_diffs.set i1 fd2 }
                  (JjLog.mk (log.log_tree.set i0 (.commit c2)), some h2.flat_log_idx)
              else (log, none)
        else (log, none)

/-- The Model fields involved in fold toggling and selection
(src/model.rs), reduced to the log tree, the flattened lists and the
selected index. -/
structure Model where
  jj_log : JjLog
  log_list : List TextM
  log_list_tree_positions : List TreePosition
  selected : Nat
deriving Repr

/-- `Model::toggle_current_fold` from src/model.rs: toggle at the selected
address, re-flatten, select the returned index. -/
def Model.toggle_current_fold (m : Model) (commitLoad : Option (List FileDiff))
    (fileDiffLoad : Option (List DiffHunk)) : Option Model :=
  (m.log_list_tree_positions[m.selected]?).bind fun tree_pos =>
    let r := m.jj_log.toggle_fold commitLoad fileDiffLoad tree_pos
    r.2.map fun idx =>
      let f := r.1.flatten_log
      { jj_log := f.1, log_list := f.2.1, log_list_tree_positions := f.2.2,
        selected := idx }

/-- `Model::get_selected_tree_position` followed by
`Model::select_next_sibling_node`, i.e. one `SelectNextSiblingNode`
message against the flattened address list. -/
def Model.select_current_next_sibling_node (log : JjLog)
    (tree_positions : List TreePosition) (selected : Nat) : Option Nat :=
  (tree_positions[selected]?).bind fun pos => Model.select_next_sibling_node log pos

/-- Repeated application of the next-sibling message. -/
def iterNextSibling (log : JjLog) (tree_positions : List TreePosition) :
    Nat → Nat → Option Nat
  | 0, sel => some sel
  | k + 1, sel =>
    (Model.select_current_next_sibling_node log tree_positions sel).bind
      (iterNextSibling log tree_positions k)

/-- `enum Message`, restricted to the command-tree actions (src/update.rs). -/
inductive Msg
  | Abandon
  | BookmarkSetMaster
  | Commit
  | Describe
  | Edit
  | GitFetch
  | GitPush
  | New
  | NewBefore
  | Restore
  | Squash
  | Undo
deriving DecidableEq, Repr

/-- `enum CommandTreeNode` from src/command_tree.rs; the `HashMap` of
children is an association list (keys are unique), help data dropped. -/
inductive CommandTreeNode
  | Children : List (Char × CommandTreeNode) → CommandTreeNode
  | Action : Msg → CommandTreeNode

/-- `CommandTreeNodeChildren::get_node`: look up one key. -/
def CommandTreeNodeChildren.get_node :
    List (Char × CommandTreeNode) → Char → Option CommandTreeNode
  | [], _ => none
  | (k, n) :: rest, key =>
    if k = key then some n else CommandTreeNodeChildren.get_node rest key

/-- `CommandTree::get_node` from src/command_tree.rs: walk the key
sequence from the root; an `Action` with keys left over is `NoMatch`. -/
def CommandTree.get_node (root : CommandTreeNode) : List Char → Option CommandTreeNode
  | [] => some root
  | k :: rest =>
    match root with
    | .Action _ => none
    | .Children ns =>
      (CommandTreeNodeChildren.get_node ns k).bind fun n => CommandTree.get_node n rest

/-- The tree built by `CommandTree::new` (src/command_tree.rs). -/
def commandTree : CommandTreeNode :=
  .Children [
    ('a', .Children [('a', .Action .Abandon)]),
    ('b', .Children [('s', .Children [('m', .Action .BookmarkSetMaster)])]),
    ('c', .Children [('c', .Action .Commit)]),
    ('d', .Children [('d', .Action .Describe)]),
    ('e', .Children [('e', .Action .Edit)]),
    ('g', .Children [('f', .Action .GitFetch), ('p', .Action .GitPush)]),
    ('n', .Children [('n', .Action .New), ('b', .Action .NewBefore)]),
    ('r', .Children [('r', .Action .Restore)]),
    ('s', .Children [('s', .Action .Squash)]),
    ('u', .Children [('u', .Action .Undo)])]

/-- `Model::handle_command_key` from src/model.rs, reduced to the pending
key buffer: push the key; on `None` pop it back (the prefix is kept!); on
`Children` keep the buffer; on `Action` clear the buffer and return the
message. -/
def Model.handle_command_key (tree : CommandTreeNode) (command_keys : List Char)
    (key_code : Char) : List Char × Option Msg :=
  let keys := command_keys ++ [key_code]
  match CommandTree.get_node tree keys with
  | none => (keys.dropLast, none)
  | some (.Children _) => (keys, none)
  | some (.Action m) => ([], some m)

/-- `enum ScrollDirection` from src/model.rs. -/
inductive ScrollDirection
  | Up
  | Down
deriving DecidableEq, Repr

/-- The Model fields involved in scrolling (src/model.rs). -/
structure ScrollState where
  log_list : List TextM
  selected : Nat
  offset : Nat
deriving DecidableEq, Repr

/-- The loop of `Model::line_dist_to_dest_node` (src/model.rs): walk
item-by-item, accumulating line counts, until the accumulated total
exceeds the target or the boundary item is reached.  The two stopping
conditions of the source (`current == len - 1` for Down, `current == 0`
for Up, or `lines_traversed > line_dist`) appear negated as the
continuation condition; an out-of-range `current` (a panic in the
source) stops the walk. -/
def lineWalkDownGo (log_list : List TextM) (line_dist : Nat) :
    Nat → Nat → Nat → Nat
  | 0, current, _ => current
  | fuel + 1, current, lines_traversed =>
    let lines_in_node := (log_list.getD current []).length
    let traversed2 := lines_traversed + lines_in_node
    if current + 1 < log_list.length ∧ ¬ traversed2 > line_dist then
      lineWalkDownGo log_list line_dist fuel (current + 1) traversed2
    else current

/-- The downward walk; `length - current` steps bound the loop, so that
fuel is never exhausted (an exhausted fuel would stop exactly where the
boundary condition stops anyway). -/
def lineWalkDown (log_list : List TextM) (line_dist : Nat)
    (current lines_traversed : Nat) : Nat :=
  lineWalkDownGo log_list line_dist (log_list.length - current) current lines_traversed

/-- The upward direction of the same loop, again via fuel. -/
def lineWalkUpGo (log_list : List TextM) (line_dist : Nat) :
    Nat → Nat → Nat → Nat
  | 0, current, _ => current
  | fuel + 1, current, lines_traversed =>
    let lines_in_node := (log_list.getD current []).length
    let traversed2 := lines_traversed + lines_in_node
    if 0 < current ∧ ¬ traversed2 > line_dist then
      lineWalkUpGo log_list line_dist fuel (current - 1) traversed2
    else current

/-- The upward walk; `current` steps bound the loop. -/
def lineWalkUp (log_list : List TextM) (line_dist : Nat)
    (current lines_traversed : Nat) : Nat :=
  lineWalkUpGo log_list line_dist (current + 1) current lines_traversed

/-- Dispatch of the walk on the direction. -/
def lineWalk (log_list : List TextM) (line_dist : Nat) (direction : ScrollDirection)
    (current lines_traversed : Nat) : Nat :=
  match direction with
  | .Down => lineWalkDown log_list line_dist current lines_traversed
  | .Up => lineWalkUp log_list line_dist current lines_traversed

/-- `Model::line_dist_to_dest_node` from src/model.rs. -/
def Model.line_dist_to_dest_node (s : ScrollState) (line_dist starting_node : Nat)
    (direction : ScrollDirection) : Nat :=
  lineWalk s.log_list line_dist direction starting_node 0

/-- `Model::scroll_lines` from src/model.rs: page scroll preserving the
selection's distance from the offset, with the two boundary overrides. -/
def Model.scroll_lines (s : ScrollState) (num_lines : Nat)
    (direction : ScrollDirection) : ScrollState :=
  let selected_node_dist_from_offset := s.selected - s.offset
  let target_offset := Model.line_dist_to_dest_node s num_lines s.offset direction
  let target_node := target_offset + selected_node_dist_from_offset
  match direction with
  | .Down =>
    if target_offset = s.log_list.length - 1 then
      { s with selected := target_offset, offset := s.offset }
    else
      { s with selected := target_node, offset := target_offset }
  | .Up =>
    if target_offset = 0 ∧ target_offset = s.offset then
      { s with selected := 0, offset := target_offset }
    else
      { s with selected := target_node, offset := target_offset }

/-- `Model::scroll_down_page` from src/model.rs, with the layout height
passed explicitly. -/
def Model.scroll_down_page (s : ScrollState) (height : Nat) : ScrollState :=
  Model.scroll_lines s height .Down

/-- Rust regex `\s` (whitespace class), ASCII part. -/
def isWsChar (c : Char) : Bool :=
  c = ' ' || c = '\t' || c = '\n' || c = '\x0b' || c = '\x0c' || c = '\r'

/-- Length of the leading whitespace run. -/
def wsCount (cs : List Char) : Nat :=
  (cs.takeWhile isWsChar).length

/-- Rust regex `.` never matches a newline: every char of a `.`-matched
span is non-newline. -/
def noNl (cs : List Char) : Bool :=
  cs.all (fun c => c != '\n')

/-- Greedy backtracking: try `f n`, `f (n-1)`, ..., `f 0`, first success. -/
def tryDesc {α : Type} (f : Nat → Option α) : Nat → Option α
  | 0 => f 0
  | n + 1 => (f (n + 1)).orElse (fun _ => tryDesc f n)

/-- `(.+?)\}$` against the tail of the rename pattern: the final char must
be the closing brace, everything before it (nonempty, newline-free) is
the lazy group. -/
def matchTail (cs : List Char) : Option (List Char) :=
  match cs.getLast? with
  | some '}' =>
    let g3 := cs.dropLast
    if g3.length > 0 && noNl g3 then some g3 else none
  | _ => none

/-- `\s*=>\s*(.+?)\}$` with the greedy whitespace runs backtracked in
leftmost-first order, as the Rust regex engine does. -/
def matchArrow (cs : List Char) : Option (List Char) :=
  tryDesc (fun k =>
    match cs.drop k with
    | '=' :: '>' :: cs2 => tryDesc (fun m => matchTail (cs2.drop m)) (wsCount cs2)
    | _ => none) (wsCount cs)

/-- `(.+?)\s*=>\s*(.+?)\}$`: the lazy first group takes the shortest
newline-free nonempty prefix after which the arrow part matches. -/
def matchG2 (cs : List Char) : Option (List Char × List Char) :=
  (List.range' 1 cs.length).findSome? fun k =>
    let g2 := cs.take k
    if noNl g2 then (matchArrow (cs.drop k)).map (fun g3 => (g2, g3)) else none

/-- The rename/copy regex `^(.+)\{(.+?)\s*=>\s*(.+?)\}$` of
`FileDiff::new` (src/log_tree.rs), with Rust leftmost-first capture
semantics; returns (start, old end, new end). -/
def renameCaptures (description : String) : Option (String × String × String) :=
  let cs := description.toList
  tryDesc (fun k =>
    if k = 0 then none
    else
      let g1 := cs.take k
      if noNl g1 then
        match cs.drop k with
        | '{' :: rest =>
          (matchG2 rest).map (fun p => (String.mk g1, String.mk p.1, String.mk p.2))
        | _ => none
      else none) cs.length

/-- The status regex `^([MADRC])\s+(.+)$` of `FileDiff::new`. -/
def parseFileDiffLine (clean_string : String) : Option (FileDiffStatus × String) :=
  match clean_string.toList with
  | [] => none
  | c :: rest =>
    (statusOfChar c).bind fun status =>
      (tryDesc (fun w =>
        if w = 0 then none
        else
          let d := rest.drop w
          if d.length > 0 && noNl d then some (String.mk d) else none)
        (wsCount rest)).map
        (fun description => (status, description))

/-- `FileDiff::new` from src/log_tree.rs: parse status and description;
for a renamed/copied entry the display path joins the prefix before the
bracket group with the new suffix inside it; `none` models the parse
`Err`. -/
def FileDiff.new (change_id : String) (pretty_string : String)
    (graph_indent : String) : Option FileDiff :=
  let clean_string := stripAnsiStr pretty_string
  (parseFileDiffLine clean_string).bind fun sd =>
    let status := sd.1
    let description := sd.2
    let pathOpt : Option String :=
      match status with
      | .Renamed | .Copied =>
        (renameCaptures description).map (fun caps => caps.1 ++ caps.2.2)
      | _ => some description
    pathOpt.map fun path =>
      { change_id := change_id, path := path, description := description,
        status := status, graph_indent := graph_indent, unfolded := false,
        loaded := false, diff_hunks := [], flat_log_idx := 0 }

/-- The line-number regex `^\s*(\d+)?\s+(\d+)?:` of
`DiffHunk::find_line_nums` (src/log_tree.rs), with greedy backtracking;
returns the two optional digit groups. -/
def matchLineNums (cs : List Char) : Option (Option (List Char) × Option (List Char)) :=
  tryDesc (fun w =>
    let cs1 := cs.drop w
    let d1 := cs1.takeWhile Char.isDigit
    tryDesc (fun k1 =>
      let g1 := cs1.take k1
      let cs2 := cs1.drop k1
      tryDesc (fun u =>
        if u = 0 then none
        else
          let cs3 := cs2.drop u
          let d2 := cs3.takeWhile Char.isDigit
          tryDesc (fun k2 =>
            let g2 := cs3.take k2
            match cs3.drop k2 with
            | ':' :: _ =>
              some ((if k1 = 0 then none else some g1),
                (if k2 = 0 then none else some g2))
            | _ => none) d2.length) (wsCount cs2)) d1.length) (wsCount cs)

/-- `str::parse::<u32>` on a digit run. -/
def charsToNat (cs : List Char) : Nat :=
  cs.foldl (fun a c => a * 10 + (c.toNat - '0'.toNat)) 0

/-- `enum SearchDirection` from src/log_tree.rs. -/
inductive SearchDirection
  | Down
  | Up
deriving DecidableEq, Repr

/-- The scan loop of `DiffHunk::find_line_nums`: skip the synthetic `~`
divider, fail on an unparsable line, keep the first digit token seen on
each side, stop early once both are found, default a missing side to 0. -/
def scanLineNums : List String → Option (List Char) → Option (List Char) →
    Option (Nat × Nat)
  | [], red, green =>
    some (charsToNat (red.getD ['0']), charsToNat (green.getD ['0']))
  | line :: rest, red, green =>
    if line = "~" then scanLineNums rest red green
    else
      match matchLineNums line.toList with
      | none => none
      | some caps =>
        let red2 := match red with | some r => some r | none => caps.1
        let green2 := match green with | some g => some g | none => caps.2
        if red2.isSome && green2.isSome then
          some (charsToNat (red2.getD ['0']), charsToNat (green2.getD ['0']))
        else scanLineNums rest red2 green2

/-- `DiffHunk::find_line_nums` from src/log_tree.rs. -/
def DiffHunk.find_line_nums (diff_hunk_lines : List DiffHunkLine)
    (direction : SearchDirection) : Option (Nat × Nat) :=
  let hunk_lines := match direction with
    | .Down => diff_hunk_lines
    | .Up => diff_hunk_lines.reverse
  scanLineNums (hunk_lines.map (fun l => stripAnsiStr l.pretty_string)) none none

/-- `str::replacen(pat, "", 1)`: delete the first occurrence of `pat`
(the empty pattern deletes nothing). -/
def removeFirst (cs pat : List Char) : List Char :=
  match cs with
  | [] => []
  | c :: rest =>
    if cs.take pat.length = pat then cs.drop pat.length
    else c :: removeFirst rest pat

/-- `DiffHunk::new` from src/log_tree.rs: derive the end-point line
numbers by scanning down and up, then re-align the line-number column
(`ilog10`, a panic on 0, is modelled by `none` when both ends are 0). -/
def DiffHunk.new (graph_indent : String) (diff_hunk_lines : List DiffHunkLine) :
    Option DiffHunk :=
  (DiffHunk.find_line_nums diff_hunk_lines .Down).bind fun s =>
  (DiffHunk.find_line_nums diff_hunk_lines .Up).bind fun e =>
  let max_line_num := max e.1 e.2
  if max_line_num = 0 then none
  else
    let line_num_chars_len := Nat.log 10 max_line_num
    let pat := List.replicate (3 - line_num_chars_len) ' '
    let lines2 := diff_hunk_lines.map fun l =>
      { l with pretty_string := String.mk (removeFirst l.pretty_string.toList pat) }
    some { graph_indent := graph_indent, unfolded := true,
           diff_hunk_lines := lines2, red_start := s.1, red_end := e.1,
           green_start := s.2, green_end := e.2, flat_log_idx := 0 }

/-- Loader well-formedness of a `FileDiff`: children are only populated by
a load, so an unloaded node that is unfolded has no children to emit. -/
def FileDiff.wf (fd : FileDiff) : Bool :=
  (!fd.unfolded || fd.loaded || fd.diff_hunks.isEmpty)

/-- Loader well-formedness of a `Commit`, including its file diffs. -/
def Commit.wf (c : Commit) : Bool :=
  (!c.unfolded || c.loaded || c.file_diffs.isEmpty) && c.file_diffs.all FileDiff.wf

/-- Loader well-formedness of a top-level entry. -/
def CommitOrText.wf : CommitOrText → Bool
  | .commit c => c.wf
  | .infoText _ => true

/-- Loader well-formedness of the whole log tree. -/
def JjLog.wf (log : JjLog) : Bool :=
  log.log_tree.all CommitOrText.wf

/-- The stronger invariant maintained by successful toggles: once
unfolded, a node has been loaded. -/
def Commit.wfLoaded (c : Commit) : Bool :=
  !c.unfolded || c.loaded

/-- C2 counterexample: with a bracket segment in the middle of the path,
the end-anchored rename regex of `FileDiff::new` does not match, so the
input "a/(bracket)x => y(bracket)/b.rs" produces a parse error instead of
the display path "a/y/b.rs" asserted by the claim. -/
theorem c2_rename_mid_bracket_counterexample :
    FileDiff.new "cid" "R a/\x7bx => y\x7d/b.rs" "" = none ∧
    (FileDiff.new "cid" "R a/\x7bx => y\x7d/b.rs" "").map FileDiff.path ≠
      some "a/y/b.rs" := by
  exact ⟨by decide, by decide⟩

/-- C2 (amended): for a renamed file-change line whose bracket group ends
the path, normalization joins the prefix with the new suffix, so
"src/(bracket)old.rs => new.rs(bracket)" with status R yields display
path "src/new.rs"; a bracket segment in the middle of the path, as in
"a/(bracket)x => y(bracket)/b.rs", does not match the end-anchored rename
regex and `FileDiff::new` fails with a parse error. -/
theorem c2_rename_normalization :
    (FileDiff.new "cid" "R src/\x7bold.rs => new.rs\x7d" "").map FileDiff.path =
      some "src/new.rs" ∧
    (FileDiff.new "cid" "C src/\x7bold.rs => new.rs\x7d" "").map FileDiff.path =
      some "src/new.rs" ∧
    FileDiff.new "cid" "R a/\x7bx => y\x7d/b.rs" "" = none := by
  exact ⟨by decide, by decide, by decide⟩

/-- C4 counterexample: after feeding "b" then the unregistered "z", the
pending buffer still holds "b" (it is not discarded), and a subsequent
"b" keypress is looked up as the sequence "b","b", which is NoMatch — it
does not start a new sequence from the trie root. -/
theorem c4_nomatch_discard_counterexample :
    (Model.handle_command_key commandTree ['b'] 'z').1 = ['b'] ∧
    (['b'] : List Char) ≠ [] ∧
    Model.handle_command_key commandTree ['b'] 'b' = (['b'], none) ∧
    CommandTree.get_node commandTree ['b', 'b'] = none := by
  exact ⟨by rfl, by decide, by rfl, by rfl⟩

/-- C4 (amended): when the dispatcher is fed a key with no continuation
under the pending prefix (NoMatch), only the offending key is removed
from the pending buffer — the previously accepted prefix is retained —
so after feeding "b" then an unregistered "z" the buffer still holds
"b", and a subsequent "b" keypress is interpreted as the continuation
"b","b" rather than starting a new sequence from the trie root. -/
theorem c4_nomatch_pops_only_offending_key (tree : CommandTreeNode)
    (command_keys : List Char) (key_code : Char)
    (h : CommandTree.get_node tree (command_keys ++ [key_code]) = none) :
    Model.handle_command_key tree command_keys key_code = (command_keys, none) := by
  simp only [Model.handle_command_key, h, List.dropLast_concat]

/-- Witness for the C4 amended theorem at the concrete keys of the claim. -/
theorem c4_nomatch_pops_only_offending_key_witness :
    CommandTree.get_node commandTree (['b'] ++ ['z']) = none ∧
    Model.handle_command_key commandTree ['b'] 'z' = (['b'], none) :=
  ⟨by rfl, c4_nomatch_pops_only_offending_key commandTree ['b'] 'z' (by rfl)⟩

/-- A concrete folded, unloaded commit used as the C5 failing input. -/
def c5commit : Commit :=
  { change_id := "zzzzzzzz", current_working_copy := false, symbol := "○",
    line1_graph_chars := "", line1_graph_chars_part2 := "",
    line2_graph_chars := "", pretty_line1 := "zzzzzzzz author 12345678",
    pretty_line2 := "a message", graph_indent := "", unfolded := false,
    loaded := false, file_diffs := [], flat_log_idx := 0 }

/-- C5 counterexample: toggling a folded, unloaded commit whose child
load fails returns the error (second component false), yet the commit's
fold state is NOT unchanged — `Commit::toggle_fold` flips `unfolded`
before attempting the fallible load and does not roll it back. -/
theorem c5_failed_load_counterexample :
    (Commit.toggle_fold c5commit none).2 = false ∧
    (Commit.toggle_fold c5commit none).1.unfolded ≠ c5commit.unfolded := by
  exact ⟨by decide, by decide⟩

/-- C5 (amended): when loading a node's children fails (malformed
collaborator output), the failure is fatal for that load — the children
stay unloaded and unchanged and the error propagates out of the toggle —
but the requested fold toggle IS applied: the node's fold state has
already been flipped to unfolded and remains so. -/
theorem c5_failed_load_flips_fold (c : Commit) (fd : FileDiff)
    (hcu : c.unfolded = false) (hcl : c.loaded = false)
    (hfl : fd.loaded = false) :
    (c.toggle_fold none).2 = false ∧
    (c.toggle_fold none).1.unfolded = true ∧
    (c.toggle_fold none).1.loaded = false ∧
    (c.toggle_fold none).1.file_diffs = c.file_diffs ∧
    (fd.toggle_fold none).2 = false ∧
    (fd.toggle_fold none).1.unfolded = (!fd.unfolded) ∧
    (fd.toggle_fold none).1.loaded = false ∧
    (fd.toggle_fold none).1.diff_hunks = fd.diff_hunks := by
  simp [Commit.toggle_fold, FileDiff.toggle_fold, hcu, hcl, hfl]

/-- Witness for the C5 amended theorem at the concrete failing input. -/
theorem c5_failed_load_flips_fold_witness :
    c5commit.unfolded = false ∧ c5commit.loaded = false ∧
    (Commit.toggle_fold c5commit none).1.unfolded = true :=
  ⟨by decide, by decide,
    (c5_failed_load_flips_fold c5commit
      { change_id := "", path := "", description := "", status := .Modified,
        graph_indent := "", unfolded := false, loaded := false,
        diff_hunks := [], flat_log_idx := 0 }
      (by decide) (by decide) (by decide)).2.1⟩

/-- A one-line hunk line for concrete examples. -/
def exLine (s : String) : DiffHunkLine :=
  { pretty_string := s, graph_indent := "", flat_log_idx := 0 }

/-- An unfolded hunk for concrete examples. -/
def exHunk (lines : List DiffHunkLine) : DiffHunk :=
  { graph_indent := "", unfolded := true, diff_hunk_lines := lines,
    red_start := 1, red_end := 1, green_start := 1, green_end := 1,
    flat_log_idx := 0 }

/-- An unfolded, loaded file diff for concrete examples. -/
def exFileDiff (hunks : List DiffHunk) : FileDiff :=
  { change_id := "cid", path := "f.rs", description := "f.rs",
    status := .Modified, graph_indent := "", unfolded := true, loaded := true,
    diff_hunks := hunks, flat_log_idx := 0 }

/-- A commit for concrete examples. -/
def exCommit (sym : String) (unfolded loaded : Bool) (fds : List FileDiff) :
    Commit :=
  { change_id := "cid", current_working_copy := sym = "@", symbol := sym,
    line1_graph_chars := "", line1_graph_chars_part2 := "",
    line2_graph_chars := "", pretty_line1 := "l1", pretty_line2 := "",
    graph_indent := "", unfolded := unfolded, loaded := loaded,
    file_diffs := fds, flat_log_idx := 0 }

/-- Two top-level commits; the second is unfolded with one file diff
holding two one-line hunks.  Flat layout after flattening:
0 commit0, 1 commit1, 2 fd, 3 hunk0, 4 line, 5 hunk1, 6 line. -/
def exLogRaw : JjLog :=
  JjLog.mk [
    .commit (exCommit "@" false false []),
    .commit (exCommit "o" true true
      [exFileDiff [exHunk [exLine "1 1: a"], exHunk [exLine "2 2: b"]]])]

/-- The example log with its flat indices filled in by a flatten pass. -/
def exLog : JjLog := (exLogRaw.flatten_log).1

/-- C3 counterexample: at address [1,0] (first child of commit 1) the
previous-sibling request selects the parent commit (flat index 1), not —
as chaining one level up would — the previous top-level entry (flat
index 0); and at the maximum-depth address [1,0,1,0] it selects the
parent hunk itself (flat index 5), not the hunk's previous sibling (flat
index 3) as the claimed walk-up-then-apply-sibling-logic would. -/
theorem c3_prev_sibling_counterexample :
    Model.select_prev_sibling_node exLog [1, 0] = some 1 ∧
    (some 1 : Option Nat) ≠ some 0 ∧
    Model.select_prev_sibling_node exLog [1, 0, 1, 0] = some 5 ∧
    (some 5 : Option Nat) ≠ some 3 := by
  exact ⟨by rfl, by decide, by rfl, by decide⟩

/-- C3 (amended): previous-sibling navigation does not chain: when the
current node is the first child of its parent, the navigator selects the
parent itself (the parent's flat index), with no recursion to the
parent's previous sibling; and at maximum depth (a hunk-line address) it
walks up one level and directly selects the parent hunk, without
applying sibling logic afterwards. -/
theorem c3_prev_sibling_selects_parent (log : JjLog) (pos : TreePosition) :
    (pos.length = DIFF_HUNK_LINE_IDX + 1 →
      Model.select_prev_sibling_node log pos =
        (log.get_tree_node pos.dropLast).map LogNode.flat_log_idx) ∧
    (1 < pos.length → pos.length ≠ DIFF_HUNK_LINE_IDX + 1 →
      pos.getLastD 0 = 0 →
      Model.select_prev_sibling_node log pos =
        (log.get_tree_node pos.dropLast).map LogNode.flat_log_idx) := by
  constructor
  · intro h4
    simp [Model.select_prev_sibling_node, h4]
  · intro h1 h4 h0
    simp only [Model.select_prev_sibling_node, h4, if_false, h0, if_pos h1]
    match hres : log.get_tree_node pos.dropLast with
    | none => simp
    | some pn => simp

/-- Witness for the C3 amended theorem at the two concrete addresses of
the counterexample. -/
theorem c3_prev_sibling_selects_parent_witness :
    Model.select_prev_sibling_node exLog [1, 0, 1, 0] =
      (exLog.get_tree_node [1, 0, 1]).map LogNode.flat_log_idx ∧
    Model.select_prev_sibling_node exLog [1, 0] =
      (exLog.get_tree_node [1]).map LogNode.flat_log_idx :=
  ⟨(c3_prev_sibling_selects_parent exLog [1, 0, 1, 0]).1 (by rfl),
    (c3_prev_sibling_selects_parent exLog [1, 0]).2 (by decide) (by decide) (by rfl)⟩

/-- C9: once a page-scroll down lands the line-distance walk on the last
item, the selection is the last item and the row offset is unchanged,
and a further page-scroll down is the identity on the resulting state —
no drift across repeated calls. -/
theorem c9_scroll_down_boundary (s : ScrollState) (num_lines : Nat)
    (hland : Model.line_dist_to_dest_node s num_lines s.offset .Down =
      s.log_list.length - 1) :
    (Model.scroll_lines s num_lines .Down).selected = s.log_list.length - 1 ∧
    (Model.scroll_lines s num_lines .Down).offset = s.offset ∧
    Model.scroll_lines (Model.scroll_lines s num_lines .Down) num_lines .Down =
      Model.scroll_lines s num_lines .Down := by
  obtain ⟨ll, sel, off⟩ := s
  simp only [Model.line_dist_to_dest_node] at hland
  simp only [Model.scroll_lines, Model.line_dist_to_dest_node] at *
  simp [hland]

/-- Witness for C9: a two-item log scrolled down by five lines lands on
the last item. -/
theorem c9_scroll_down_boundary_witness :
    Model.line_dist_to_dest_node (ScrollState.mk [["a"], ["b"]] 0 0) 5 0 .Down =
      ([["a"], ["b"]] : List TextM).length - 1 ∧
    (Model.scroll_lines (ScrollState.mk [["a"], ["b"]] 0 0) 5 .Down).selected = 1 :=
  ⟨by rfl, (c9_scroll_down_boundary (ScrollState.mk [["a"], ["b"]] 0 0) 5 (by rfl)).1⟩

/-- C10: for a maximum-depth (hunk-line) address, the fold toggle first
truncates the address to `DIFF_HUNK_IDX + 1` components, so it acts on
the ancestor diff-hunk rather than the leaf: toggling at the leaf address
equals toggling at the truncated address, the returned selection index is
the hunk's flat index, the hunk's fold state is flipped in the resulting
tree, the hunk-line itself resolves unchanged, and the leaf's own
`toggle_fold` is a no-op that this path never needs. -/
theorem c10_max_depth_toggle_targets_hunk (log : JjLog)
    (commitLoad : Option (List FileDiff)) (fileDiffLoad : Option (List DiffHunk))
    (pos : TreePosition) (h0 : DiffHunk)
    (hlen : pos.length = DIFF_HUNK_LINE_IDX + 1)
    (hres : log.get_tree_node (pos.take (DIFF_HUNK_IDX + 1)) =
      some (.diffHunk h0)) :
    JjLog.toggle_fold log commitLoad fileDiffLoad pos =
      JjLog.toggle_fold log commitLoad fileDiffLoad (pos.take (DIFF_HUNK_IDX + 1)) ∧
    (JjLog.toggle_fold log commitLoad fileDiffLoad pos).2 = some h0.flat_log_idx ∧
    JjLog.get_tree_node (JjLog.toggle_fold log commitLoad fileDiffLoad pos).1
        (pos.take (DIFF_HUNK_IDX + 1)) = some (.diffHunk h0.toggle_fold) ∧
    JjLog.get_tree_node (JjLog.toggle_fold log commitLoad fileDiffLoad pos).1 pos =
      log.get_tree_node pos ∧
    (∀ l : DiffHunkLine, l.toggle_fold = l) := by
  rcases pos with _ | ⟨i0, _ | ⟨i1, _ | ⟨i2, _ | ⟨i3, _ | ⟨i4, rest⟩⟩⟩⟩⟩ <;>
    simp only [DIFF_HUNK_LINE_IDX, List.length_nil, List.length_cons] at hlen <;>
    try omega
  simp only [DIFF_HUNK_IDX, List.take_succ_cons, List.take_zero] at hres ⊢
  rcases hc : log.log_tree[i0]? with _ | ⟨c⟩ | ⟨t⟩
  · simp [JjLog.get_tree_node, hc] at hres
  · cases hcl : c.loaded with
    | false => simp [JjLog.get_tree_node, hc, CommitOrText.resolve,
        Commit.resolve, hcl] at hres
    | true =>
      rcases hfd : c.file_diffs[i1]? with _ | ⟨fd⟩
      · simp [JjLog.get_tree_node, hc, CommitOrText.resolve, Commit.resolve,
          hcl, hfd] at hres
      · cases hfl : fd.loaded with
        | false => simp [JjLog.get_tree_node, hc, CommitOrText.resolve,
            Commit.resolve, FileDiff.resolve, hcl, hfd, hfl] at hres
        | true =>
          rcases hh : fd.diff_hunks[i2]? with _ | ⟨h⟩
          · simp [JjLog.get_tree_node, hc, CommitOrText.resolve, Commit.resolve,
              FileDiff.resolve, hcl, hfd, hfl, hh] at hres
          · simp only [JjLog.get_tree_node, hc, CommitOrText.resolve,
              Commit.resolve, FileDiff.resolve, DiffHunk.resolve, hcl, hfd, hfl,
              hh, Option.some_bind, if_true, Option.some.injEq,
              LogNode.diffHunk.injEq] at hres
            subst hres
            obtain ⟨hi0, -⟩ := List.getElem?_eq_some_iff.mp hc
            obtain ⟨hi1, -⟩ := List.getElem?_eq_some_iff.mp hfd
            obtain ⟨hi2, -⟩ := List.getElem?_eq_some_iff.mp hh
            refine ⟨rfl, ?_, ?_, ?_, fun l => rfl⟩
            · simp only [JjLog.toggle_fold, DIFF_HUNK_IDX, List.take_succ_cons,
                List.take_zero, hc, hcl, hfd, hfl, hh, if_true,
                DiffHunk.toggle_fold]
            · simp only [JjLog.toggle_fold, DIFF_HUNK_IDX, List.take_succ_cons,
                List.take_zero, hc, hcl, hfd, hfl, hh, if_true]
              simp only [JjLog.get_tree_node, List.getElem?_set_self hi0,
                Option.some_bind, CommitOrText.resolve, Commit.resolve, hcl,
                if_true, List.getElem?_set_self hi1, FileDiff.resolve, hfl,
                List.getElem?_set_self hi2, DiffHunk.resolve]
            · simp only [JjLog.toggle_fold, DIFF_HUNK_IDX, List.take_succ_cons,
                List.take_zero, hc, hcl, hfd, hfl, hh, if_true]
              simp only [JjLog.get_tree_node, List.getElem?_set_self hi0,
                Option.some_bind, CommitOrText.resolve, Commit.resolve, hcl,
                if_true, List.getElem?_set_self hi1, FileDiff.resolve, hfl,
                List.getElem?_set_self hi2, DiffHunk.resolve, hc, hfd, hh,
                DiffHunk.toggle_fold]
  · simp [JjLog.get_tree_node, hc, CommitOrText.resolve] at hres

/-- The second hunk of `exLog` as it stands after the flatten pass. -/
def exHunk1Post : DiffHunk :=
  { graph_indent := "", unfolded := true,
    diff_hunk_lines :=
      [{ pretty_string := "2 2: b", graph_indent := "", flat_log_idx := 6 }],
    red_start := 1, red_end := 1, green_start := 1, green_end := 1,
    flat_log_idx := 5 }

/-- Witness for C10 at the concrete example log: toggling at the
hunk-line address [1,0,1,0] targets the hunk at [1,0,1]. -/
theorem c10_max_depth_toggle_targets_hunk_witness :
    ([1, 0, 1, 0] : TreePosition).length = DIFF_HUNK_LINE_IDX + 1 ∧
    exLog.get_tree_node (([1, 0, 1, 0] : TreePosition).take (DIFF_HUNK_IDX + 1)) =
      some (.diffHunk exHunk1Post) ∧
    (JjLog.toggle_fold exLog none none [1, 0, 1, 0]).2 = some 5 :=
  ⟨rfl, rfl,
    (c10_max_depth_toggle_targets_hunk exLog none none [1, 0, 1, 0] exHunk1Post
      rfl rfl).2.1⟩

/-- A stripped hunk line that contributes no before-side number: the
divider, or a line parsing with an absent first capture group. -/
def redlessLineB (s : String) : Bool :=
  s == "~" ||
    (match matchLineNums s.toList with
     | some caps => caps.1.isNone
     | none => false)

/-- A stripped hunk line that contributes no after-side number. -/
def greenlessLineB (s : String) : Bool :=
  s == "~" ||
    (match matchLineNums s.toList with
     | some caps => caps.2.isNone
     | none => false)

/-- If no scanned line carries a before-side number, the scan defaults the
before-side result to 0. -/
theorem scanLineNums_red_default (lines : List String) :
    ∀ (green : Option (List Char)),
      (∀ s ∈ lines, redlessLineB s = true) →
      ∀ r g, scanLineNums lines none green = some (r, g) → r = 0 := by
  induction lines with
  | nil =>
    intro green _ r g h
    simp only [scanLineNums, Option.some.injEq, Prod.mk.injEq] at h
    rw [← h.1]
    decide
  | cons line rest ih =>
    intro green hall r g h
    by_cases hline : line = "~"
    · rw [scanLineNums, if_pos hline] at h
      exact ih green (fun s hs => hall s (List.mem_cons_of_mem _ hs)) r g h
    · have hl := hall line (List.mem_cons_self line rest)
      simp only [redlessLineB, Bool.or_eq_true, beq_iff_eq, hline,
        false_or] at hl
      rcases hm : matchLineNums line.toList with _ | caps
      · rw [hm] at hl
        simp at hl
      · rw [hm] at hl
        simp only [Option.isNone_iff_eq_none] at hl
        rw [scanLineNums, if_neg hline, hm] at h
        simp only [hl, Option.isSome_none, Bool.false_and, Bool.false_eq_true,
          if_false] at h
        exact ih _ (fun s hs => hall s (List.mem_cons_of_mem _ hs)) r g h

/-- If no scanned line carries an after-side number, the scan defaults the
after-side result to 0. -/
theorem scanLineNums_green_default (lines : List String) :
    ∀ (red : Option (List Char)),
      (∀ s ∈ lines, greenlessLineB s = true) →
      ∀ r g, scanLineNums lines red none = some (r, g) → g = 0 := by
  induction lines with
  | nil =>
    intro red _ r g h
    simp only [scanLineNums, Option.some.injEq, Prod.mk.injEq] at h
    rw [← h.2]
    decide
  | cons line rest ih =>
    intro red hall r g h
    by_cases hline : line = "~"
    · rw [scanLineNums, if_pos hline] at h
      exact ih red (fun s hs => hall s (List.mem_cons_of_mem _ hs)) r g h
    · have hl := hall line (List.mem_cons_self line rest)
      simp only [greenlessLineB, Bool.or_eq_true, beq_iff_eq, hline,
        false_or] at hl
      rcases hm : matchLineNums line.toList with _ | caps
      · rw [hm] at hl
        simp at hl
      · rw [hm] at hl
        simp only [Option.isNone_iff_eq_none] at hl
        rw [scanLineNums, if_neg hline, hm] at h
        simp only [hl, Option.isSome_none, Bool.and_false, Bool.false_eq_true,
          if_false] at h
        exact ih _ (fun s hs => hall s (List.mem_cons_of_mem _ hs)) r g h

/-- The C7 example hunk: before-side numbers 12..15, after-side numbers
12..16, with one inserted line and a trailing synthetic divider. -/
def c7lines : List DiffHunkLine :=
  [exLine "12 12: a", exLine "13 13: b", exLine "   14: c", exLine "14 15: d",
    exLine "15 16: e", exLine "\x1b[35m~\x1b[0m"]

/-- C7: the loader scans a hunk's lines for the first and last
before/after line-number tokens, skipping the synthetic divider,
defaulting a side with no numbered line to 0, and the rendered header
derives each count as end - start + 1 when the end is nonzero (else 0):
the example with before-numbers 12..15 and after-numbers 12..16 yields
ranges (12,4) and (12,5). -/
theorem c7_hunk_line_number_derivation :
    (DiffHunk.new "" c7lines).map
        (fun h => (h.red_start, h.red_end, h.green_start, h.green_end)) =
      some (12, 15, 12, 16) ∧
    (DiffHunk.new "" c7lines).map DiffHunk.render =
      some ["▾ @@ -12,4 +12,5 @@"] ∧
    (∀ rest red green, scanLineNums ("~" :: rest) red green =
      scanLineNums rest red green) ∧
    (∀ lines dir r g,
      (∀ l ∈ lines, redlessLineB (stripAnsiStr l.pretty_string) = true) →
      DiffHunk.find_line_nums lines dir = some (r, g) → r = 0) ∧
    (∀ lines dir r g,
      (∀ l ∈ lines, greenlessLineB (stripAnsiStr l.pretty_string) = true) →
      DiffHunk.find_line_nums lines dir = some (r, g) → g = 0) := by
  refine ⟨by decide, by decide, ?_, ?_, ?_⟩
  · intro rest red green
    rw [scanLineNums, if_pos rfl]
  · intro lines dir r g hall h
    unfold DiffHunk.find_line_nums at h
    refine scanLineNums_red_default _ none ?_ r g h
    intro s hs
    obtain ⟨l, hl, rfl⟩ := List.mem_map.mp hs
    cases dir with
    | Down => exact hall l hl
    | Up => exact hall l (List.mem_reverse.mp hl)
  · intro lines dir r g hall h
    unfold DiffHunk.find_line_nums at h
    refine scanLineNums_green_default _ none ?_ r g h
    intro s hs
    obtain ⟨l, hl, rfl⟩ := List.mem_map.mp hs
    cases dir with
    | Down => exact hall l hl
    | Up => exact hall l (List.mem_reverse.mp hl)

/-- Witness for C7: the default-to-0 conjuncts applied to a concrete
added-file hunk (no before-side numbers). -/
theorem c7_hunk_line_number_derivation_witness :
    (∀ l ∈ [exLine "   1: new", exLine "   2: also new"],
      redlessLineB (stripAnsiStr l.pretty_string) = true) ∧
    DiffHunk.find_line_nums [exLine "   1: new", exLine "   2: also new"] .Down =
      some (0, 1) ∧
    (0 : Nat) = 0 :=
  ⟨by decide, by decide,
    c7_hunk_line_number_derivation.2.2.2.1
      [exLine "   1: new", exLine "   2: also new"] .Down 0 1 (by decide)
      (by decide)⟩

/-- Rendering ignores the cached flat index. -/
theorem line_render_set (l : DiffHunkLine) (n : Nat) :
    DiffHunkLine.render { l with flat_log_idx := n } = l.render := rfl

/-- Hunk rendering ignores the cached flat index and the child list. -/
theorem hunk_render_set (h : DiffHunk) (n : Nat) (ls : List DiffHunkLine) :
    DiffHunk.render { h with flat_log_idx := n, diff_hunk_lines := ls } =
      h.render := rfl

/-- File-diff rendering ignores the cached flat index and the child list. -/
theorem fd_render_set (fd : FileDiff) (n : Nat) (hs : List DiffHunk) :
    FileDiff.render { fd with flat_log_idx := n, diff_hunks := hs } =
      fd.render := rfl

/-- Commit rendering ignores the cached flat index and the child list. -/
theorem commit_render_set (c : Commit) (n : Nat) (fds : List FileDiff) :
    Commit.render { c with flat_log_idx := n, file_diffs := fds } =
      c.render := rfl

/-- Flatten invariant at the hunk-line list level: the item and address
lists are extended in step, the flattened children list keeps its length,
and every new index j holds the rendering of the child at some m, whose
recorded address is `pos ++ [i + m]` and whose stored flat index is j. -/
theorem flattenLines_spec :
    ∀ (ls : List DiffHunkLine) (pos : TreePosition) (i : Nat) (ll : List TextM)
      (ps : List TreePosition), ll.length = ps.length →
      (∃ dll dps, (DiffHunk.flattenLines ls pos i ll ps).2.1 = ll ++ dll ∧
        (DiffHunk.flattenLines ls pos i ll ps).2.2 = ps ++ dps ∧
        dll.length = dps.length) ∧
      (DiffHunk.flattenLines ls pos i ll ps).1.length = ls.length ∧
      (∀ j, ll.length ≤ j →
        j < (DiffHunk.flattenLines ls pos i ll ps).2.1.length →
        ∃ m lm, (DiffHunk.flattenLines ls pos i ll ps).1[m]? = some lm ∧
          (DiffHunk.flattenLines ls pos i ll ps).2.2[j]? =
            some (pos ++ [i + m]) ∧
          lm.flat_log_idx = j ∧
          (DiffHunk.flattenLines ls pos i ll ps).2.1[j]? = some lm.render) := by
  intro ls
  induction ls with
  | nil =>
    intro pos i ll ps hlen
    refine ⟨⟨[], [], by simp [DiffHunk.flattenLines],
      by simp [DiffHunk.flattenLines], rfl⟩, rfl, ?_⟩
    intro j hj1 hj2
    simp only [DiffHunk.flattenLines] at hj2
    omega
  | cons l rest ih =>
    intro pos i ll ps hlen
    have hlen1 : (ll ++ [l.render]).length = (ps ++ [pos ++ [i]]).length := by
      simp [hlen]
    obtain ⟨⟨dll, dps, e1, e2, elen⟩, hrestlen, hemit⟩ :=
      ih pos (i + 1) (ll ++ [l.render]) (ps ++ [pos ++ [i]]) hlen1
    have hfl : DiffHunk.flattenLines (l :: rest) pos i ll ps =
        (({ l with flat_log_idx := ll.length }) ::
            (DiffHunk.flattenLines rest pos (i + 1) (ll ++ [l.render])
              (ps ++ [pos ++ [i]])).1,
          (DiffHunk.flattenLines rest pos (i + 1) (ll ++ [l.render])
            (ps ++ [pos ++ [i]])).2.1,
          (DiffHunk.flattenLines rest pos (i + 1) (ll ++ [l.render])
            (ps ++ [pos ++ [i]])).2.2) := by
      simp only [DiffHunk.flattenLines, DiffHunkLine.flatten]
    rw [hfl]
    refine ⟨⟨[l.render] ++ dll, [pos ++ [i]] ++ dps, by
        rw [e1, List.append_assoc], by rw [e2, List.append_assoc], by
        simp [elen]⟩, by simp [hrestlen], ?_⟩
    intro j hj1 hj2
    rcases Nat.eq_or_lt_of_le hj1 with hj | hj
    · subst hj
      refine ⟨0, { l with flat_log_idx := ll.length }, by simp, ?_, by simp, ?_⟩
      · have h1 : ll.length < (ps ++ [pos ++ [i]]).length := by simp; omega
        rw [e2, List.getElem?_append_left h1, hlen, List.getElem?_concat_length]
        simp
      · have h2 : ll.length < (ll ++ [l.render]).length := by simp
        rw [e1, List.getElem?_append_left h2, List.getElem?_concat_length]
        rfl
    · have hj2a : j < (DiffHunk.flattenLines rest pos (i + 1)
          (ll ++ [l.render]) (ps ++ [pos ++ [i]])).2.1.length := hj2
      obtain ⟨m, lm, hm1, hm2, hm3, hm4⟩ := hemit j (by simp; omega) hj2a
      refine ⟨m + 1, lm, by simpa using hm1, ?_, hm3, hm4⟩
      rw [hm2]
      have : i + 1 + m = i + (m + 1) := by omega
      rw [this]

/-- Unfolding equation for `DiffHunk.flatten`. -/
theorem hunk_flatten_eq (h : DiffHunk) (pos : TreePosition) (ll : List TextM)
    (ps : List TreePosition) :
    h.flatten pos ll ps =
      if !h.unfolded then
        ({ h with flat_log_idx := ll.length }, ll ++ [h.render], ps ++ [pos])
      else
        ({ h with flat_log_idx := ll.length, diff_hunk_lines :=
            (DiffHunk.flattenLines h.diff_hunk_lines pos 0 (ll ++ [h.render])
              (ps ++ [pos])).1 },
          (DiffHunk.flattenLines h.diff_hunk_lines pos 0 (ll ++ [h.render])
            (ps ++ [pos])).2.1,
          (DiffHunk.flattenLines h.diff_hunk_lines pos 0 (ll ++ [h.render])
            (ps ++ [pos])).2.2) := rfl

/-- Flatten invariant for one hunk: the node's own rendering is emitted
first at index `ll.length` (its recorded flat index) with its own
address, and every emitted index resolves through the flattened hunk. -/
theorem hunk_flatten_spec (h : DiffHunk) (pos : TreePosition)
    (ll : List TextM) (ps : List TreePosition) (hlen : ll.length = ps.length) :
    (∃ dll dps, (h.flatten pos ll ps).2.1 = ll ++ dll ∧
      (h.flatten pos ll ps).2.2 = ps ++ dps ∧ dll.length = dps.length) ∧
    ll.length < (h.flatten pos ll ps).2.1.length ∧
    (h.flatten pos ll ps).1.flat_log_idx = ll.length ∧
    (h.flatten pos ll ps).2.2[ll.length]? = some pos ∧
    (∀ j, ll.length ≤ j → j < (h.flatten pos ll ps).2.1.length →
      ∃ suffix node, (h.flatten pos ll ps).2.2[j]? = some (pos ++ suffix) ∧
        (h.flatten pos ll ps).1.resolve suffix = some node ∧
        node.flat_log_idx = j ∧
        (h.flatten pos ll ps).2.1[j]? = some node.render) := by
  rw [hunk_flatten_eq]
  have hlt : ll.length < (ll ++ [h.render]).length := by simp
  have hltp : ll.length < (ps ++ [pos]).length := by simp; omega
  by_cases hu : h.unfolded = true
  · rw [if_neg (show ¬ ((!h.unfolded) = true) by rw [hu]; simp)]
    obtain ⟨⟨dll, dps, e1, e2, elen⟩, hflen, hemit⟩ :=
      flattenLines_spec h.diff_hunk_lines pos 0 (ll ++ [h.render]) (ps ++ [pos])
        (by simp [hlen])
    refine ⟨⟨[h.render] ++ dll, [pos] ++ dps,
        by rw [e1, List.append_assoc], by rw [e2, List.append_assoc],
        by simp [elen]⟩,
      by rw [e1]; simp, rfl, ?_, ?_⟩
    · rw [e2, List.getElem?_append_left hltp, hlen, List.getElem?_concat_length]
    · intro j hj1 hj2
      rcases Nat.eq_or_lt_of_le hj1 with hj | hj
      · subst hj
        refine ⟨[], _, ?_, rfl, rfl, ?_⟩
        · rw [e2, List.getElem?_append_left hltp, hlen,
            List.getElem?_concat_length, List.append_nil]
        · rw [e1, List.getElem?_append_left hlt, List.getElem?_concat_length]
          rfl
      · obtain ⟨m, lm, hm1, hm2, hm3, hm4⟩ := hemit j (by simp; omega) hj2
        refine ⟨[m], LogNode.diffHunkLine lm, ?_, ?_, hm3, ?_⟩
        · rw [hm2, Nat.zero_add]
        · show ((DiffHunk.flattenLines h.diff_hunk_lines pos 0 (ll ++ [h.render])
              (ps ++ [pos])).1[m]?).map LogNode.diffHunkLine = _
          rw [hm1]
          rfl
        · rw [hm4]
          rfl
  · have hu2 : h.unfolded = false := by rwa [Bool.not_eq_true] at hu
    rw [if_pos (show (!h.unfolded) = true by rw [hu2]; rfl)]
    refine ⟨⟨[h.render], [pos], rfl, rfl, rfl⟩, by simp, rfl, ?_, ?_⟩
    · show (ps ++ [pos])[ll.length]? = some pos
      rw [hlen, List.getElem?_concat_length]
    · intro j hj1 hj2
      simp only [List.length_append, List.length_cons, List.length_nil] at hj2
      have hj : j = ll.length := by omega
      subst hj
      refine ⟨[], _, ?_, rfl, rfl, ?_⟩
      · show (ps ++ [pos])[ll.length]? = some (pos ++ [])
        rw [hlen, List.getElem?_concat_length, List.append_nil]
      · show (ll ++ [h.render])[ll.length]? = _
        rw [List.getElem?_concat_length]
        rfl

/-- Flatten invariant at the hunk list level: every emitted index resolves
through some flattened hunk `m`, under address `pos ++ ((i + m) :: suffix)`. -/
theorem flattenHunks_spec :
    ∀ (hs : List DiffHunk) (pos : TreePosition) (i : Nat) (ll : List TextM)
      (ps : List TreePosition), ll.length = ps.length →
      (∃ dll dps, (FileDiff.flattenHunks hs pos i ll ps).2.1 = ll ++ dll ∧
        (FileDiff.flattenHunks hs pos i ll ps).2.2 = ps ++ dps ∧
        dll.length = dps.length) ∧
      (FileDiff.flattenHunks hs pos i ll ps).1.length = hs.length ∧
      (∀ j, ll.length ≤ j →
        j < (FileDiff.flattenHunks hs pos i ll ps).2.1.length →
        ∃ m suffix hk node,
          (FileDiff.flattenHunks hs pos i ll ps).1[m]? = some hk ∧
          (FileDiff.flattenHunks hs pos i ll ps).2.2[j]? =
            some (pos ++ ((i + m) :: suffix)) ∧
          hk.resolve suffix = some node ∧
          node.flat_log_idx = j ∧
          (FileDiff.flattenHunks hs pos i ll ps).2.1[j]? = some node.render) := by
  intro hs
  induction hs with
  | nil =>
    intro pos i ll ps hlen
    refine ⟨⟨[], [], by simp [FileDiff.flattenHunks],
      by simp [FileDiff.flattenHunks], rfl⟩, rfl, ?_⟩
    intro j hj1 hj2
    simp only [FileDiff.flattenHunks] at hj2
    omega
  | cons h rest ih =>
    intro pos i ll ps hlen
    obtain ⟨⟨dll1, dps1, f1, f2, flen1⟩, hlt1, hflat1, hown1, hemitH⟩ :=
      hunk_flatten_spec h (pos ++ [i]) ll ps hlen
    have hlen2 : (h.flatten (pos ++ [i]) ll ps).2.1.length =
        (h.flatten (pos ++ [i]) ll ps).2.2.length := by
      rw [f1, f2]
      simp [hlen, flen1]
    obtain ⟨⟨dll2, dps2, e1, e2, elen2⟩, hrlen, hemitR⟩ :=
      ih pos (i + 1) (h.flatten (pos ++ [i]) ll ps).2.1
        (h.flatten (pos ++ [i]) ll ps).2.2 hlen2
    have hfh : FileDiff.flattenHunks (h :: rest) pos i ll ps =
        ((h.flatten (pos ++ [i]) ll ps).1 ::
          (FileDiff.flattenHunks rest pos (i + 1)
            (h.flatten (pos ++ [i]) ll ps).2.1
            (h.flatten (pos ++ [i]) ll ps).2.2).1,
          (FileDiff.flattenHunks rest pos (i + 1)
            (h.flatten (pos ++ [i]) ll ps).2.1
            (h.flatten (pos ++ [i]) ll ps).2.2).2.1,
          (FileDiff.flattenHunks rest pos (i + 1)
            (h.flatten (pos ++ [i]) ll ps).2.1
            (h.flatten (pos ++ [i]) ll ps).2.2).2.2) := rfl
    rw [hfh]
    refine ⟨⟨dll1 ++ dll2, dps1 ++ dps2, by rw [e1, f1, List.append_assoc],
        by rw [e2, f2, List.append_assoc], by simp [flen1, elen2]⟩,
      by simp [hrlen], ?_⟩
    intro j hj1 hj2
    rcases Nat.lt_or_ge j (h.flatten (pos ++ [i]) ll ps).2.1.length with hj | hj
    · obtain ⟨suffix, node, ha, hb, hcc, hd⟩ := hemitH j hj1 hj
      refine ⟨0, suffix, (h.flatten (pos ++ [i]) ll ps).1, node, by simp, ?_,
        hb, hcc, ?_⟩
      · have hjp : j < (h.flatten (pos ++ [i]) ll ps).2.2.length := by omega
        rw [e2, List.getElem?_append_left hjp, ha]
        simp
      · rw [e1, List.getElem?_append_left hj, hd]
    · obtain ⟨m, suffix, hk, node, hk1, hk2, hk3, hk4, hk5⟩ := hemitR j hj hj2
      refine ⟨m + 1, suffix, hk, node, by simpa using hk1, ?_, hk3, hk4, hk5⟩
      rw [hk2]
      have harith : i + 1 + m = i + (m + 1) := by omega
      rw [harith]

/-- Unfolding equation for `FileDiff.flatten`. -/
theorem fd_flatten_eq (fd : FileDiff) (pos : TreePosition)
    (ll : List TextM) (ps : List TreePosition) :
    fd.flatten pos ll ps =
      if !fd.unfolded then
        ({ fd with flat_log_idx := ll.length }, ll ++ [fd.render], ps ++ [pos])
      else
        ({ fd with flat_log_idx := ll.length, diff_hunks :=
            (FileDiff.flattenHunks fd.diff_hunks pos 0 (ll ++ [fd.render])
              (ps ++ [pos])).1 },
          (FileDiff.flattenHunks fd.diff_hunks pos 0 (ll ++ [fd.render])
            (ps ++ [pos])).2.1,
          (FileDiff.flattenHunks fd.diff_hunks pos 0 (ll ++ [fd.render])
            (ps ++ [pos])).2.2) := rfl

/-- Flatten invariant for one file diff, assuming loader well-formedness
(an unfolded but unloaded file diff has no hunks to emit). -/
theorem fd_flatten_spec (fd : FileDiff) (pos : TreePosition)
    (ll : List TextM) (ps : List TreePosition) (hlen : ll.length = ps.length)
    (hwf : fd.wf = true) :
    (∃ dll dps, (fd.flatten pos ll ps).2.1 = ll ++ dll ∧
      (fd.flatten pos ll ps).2.2 = ps ++ dps ∧ dll.length = dps.length) ∧
    ll.length < (fd.flatten pos ll ps).2.1.length ∧
    (fd.flatten pos ll ps).1.flat_log_idx = ll.length ∧
    (fd.flatten pos ll ps).2.2[ll.length]? = some pos ∧
    (∀ j, ll.length ≤ j → j < (fd.flatten pos ll ps).2.1.length →
      ∃ suffix node, (fd.flatten pos ll ps).2.2[j]? = some (pos ++ suffix) ∧
        (fd.flatten pos ll ps).1.resolve suffix = some node ∧
        node.flat_log_idx = j ∧
        (fd.flatten pos ll ps).2.1[j]? = some node.render) := by
  rw [fd_flatten_eq]
  have hlt : ll.length < (ll ++ [fd.render]).length := by simp
  by_cases hu : fd.unfolded = true
  · rw [if_neg (show ¬ ((!fd.unfolded) = true) by rw [hu]; simp)]
    obtain ⟨⟨dll, dps, e1, e2, elen⟩, hflen, hemit⟩ :=
      flattenHunks_spec fd.diff_hunks pos 0 (ll ++ [fd.render]) (ps ++ [pos])
        (by simp [hlen])
    have hltp : ll.length < (ps ++ [pos]).length := by simp; omega
    refine ⟨⟨[fd.render] ++ dll, [pos] ++ dps,
        by rw [e1, List.append_assoc], by rw [e2, List.append_assoc],
        by simp [elen]⟩,
      by rw [e1]; simp, rfl, ?_, ?_⟩
    · rw [e2, List.getElem?_append_left hltp, hlen, List.getElem?_concat_length]
    · intro j hj1 hj2
      rcases Nat.eq_or_lt_of_le hj1 with hj | hj
      · subst hj
        refine ⟨[], _, ?_, rfl, rfl, ?_⟩
        · rw [e2, List.getElem?_append_left hltp, hlen,
            List.getElem?_concat_length, List.append_nil]
        · rw [e1, List.getElem?_append_left hlt, List.getElem?_concat_length]
          rfl
      · obtain ⟨m, suffix, hk, node, hk1, hk2, hk3, hk4, hk5⟩ :=
          hemit j (by simp; omega) hj2
        have hld : fd.loaded = true := by
          by_contra hld
          rw [Bool.not_eq_true] at hld
          simp only [FileDiff.wf, hu, hld, Bool.not_true, Bool.false_or,
            Bool.or_eq_true, List.isEmpty_iff] at hwf
          rw [hwf] at hj2
          simp only [FileDiff.flattenHunks, List.length_append,
            List.length_cons, List.length_nil] at hj2
          omega
        refine ⟨(0 + m) :: suffix, node, hk2, ?_, hk4, hk5⟩
        show (if fd.loaded = true then
            ((FileDiff.flattenHunks fd.diff_hunks pos 0 (ll ++ [fd.render])
              (ps ++ [pos])).1[0 + m]?).bind (fun hk => hk.resolve suffix)
          else none) = some node
        rw [if_pos hld, Nat.zero_add, hk1]
        exact hk3
  · have hu2 : fd.unfolded = false := by rwa [Bool.not_eq_true] at hu
    rw [if_pos (show (!fd.unfolded) = true by rw [hu2]; rfl)]
    refine ⟨⟨[fd.render], [pos], rfl, rfl, rfl⟩, by simp, rfl, ?_, ?_⟩
    · show (ps ++ [pos])[ll.length]? = some pos
      rw [hlen, List.getElem?_concat_length]
    · intro j hj1 hj2
      simp only [List.length_append, List.length_cons, List.length_nil] at hj2
      have hj : j = ll.length := by omega
      subst hj
      refine ⟨[], _, ?_, rfl, rfl, ?_⟩
      · show (ps ++ [pos])[ll.length]? = some (pos ++ [])
        rw [hlen, List.getElem?_concat_length, List.append_nil]
      · show (ll ++ [fd.render])[ll.length]? = _
        rw [List.getElem?_concat_length]
        rfl

/-- Flatten invariant at the file-diff list level. -/
theorem flattenFileDiffs_spec :
    ∀ (fds : List FileDiff) (pos : TreePosition) (i : Nat) (ll : List TextM)
      (ps : List TreePosition), ll.length = ps.length →
      (∀ fd ∈ fds, fd.wf = true) →
      (∃ dll dps, (Commit.flattenFileDiffs fds pos i ll ps).2.1 = ll ++ dll ∧
        (Commit.flattenFileDiffs fds pos i ll ps).2.2 = ps ++ dps ∧
        dll.length = dps.length) ∧
      (Commit.flattenFileDiffs fds pos i ll ps).1.length = fds.length ∧
      (∀ j, ll.length ≤ j →
        j < (Commit.flattenFileDiffs fds pos i ll ps).2.1.length →
        ∃ m suffix fdk node,
          (Commit.flattenFileDiffs fds pos i ll ps).1[m]? = some fdk ∧
          (Commit.flattenFileDiffs fds pos i ll ps).2.2[j]? =
            some (pos ++ ((i + m) :: suffix)) ∧
          fdk.resolve suffix = some node ∧
          node.flat_log_idx = j ∧
          (Commit.flattenFileDiffs fds pos i ll ps).2.1[j]? = some node.render) := by
  intro fds
  induction fds with
  | nil =>
    intro pos i ll ps hlen _
    refine ⟨⟨[], [], by simp [Commit.flattenFileDiffs],
      by simp [Commit.flattenFileDiffs], rfl⟩, rfl, ?_⟩
    intro j hj1 hj2
    simp only [Commit.flattenFileDiffs] at hj2
    omega
  | cons fd rest ih =>
    intro pos i ll ps hlen hw
    obtain ⟨⟨dll1, dps1, f1, f2, flen1⟩, hlt1, hflat1, hown1, hemitH⟩ :=
      fd_flatten_spec fd (pos ++ [i]) ll ps hlen
        (hw fd (List.mem_cons_self fd rest))
    have hlen2 : (fd.flatten (pos ++ [i]) ll ps).2.1.length =
        (fd.flatten (pos ++ [i]) ll ps).2.2.length := by
      rw [f1, f2]
      simp [hlen, flen1]
    obtain ⟨⟨dll2, dps2, e1, e2, elen2⟩, hrlen, hemitR⟩ :=
      ih pos (i + 1) (fd.flatten (pos ++ [i]) ll ps).2.1
        (fd.flatten (pos ++ [i]) ll ps).2.2 hlen2
        (fun x hx => hw x (List.mem_cons_of_mem _ hx))
    have hfh : Commit.flattenFileDiffs (fd :: rest) pos i ll ps =
        ((fd.flatten (pos ++ [i]) ll ps).1 ::
          (Commit.flattenFileDiffs rest pos (i + 1)
            (fd.flatten (pos ++ [i]) ll ps).2.1
            (fd.flatten (pos ++ [i]) ll ps).2.2).1,
          (Commit.flattenFileDiffs rest pos (i + 1)
            (fd.flatten (pos ++ [i]) ll ps).2.1
            (fd.flatten (pos ++ [i]) ll ps).2.2).2.1,
          (Commit.flattenFileDiffs rest pos (i + 1)
            (fd.flatten (pos ++ [i]) ll ps).2.1
            (fd.flatten (pos ++ [i]) ll ps).2.2).2.2) := rfl
    rw [hfh]
    refine ⟨⟨dll1 ++ dll2, dps1 ++ dps2, by rw [e1, f1, List.append_assoc],
        by rw [e2, f2, List.append_assoc], by simp [flen1, elen2]⟩,
      by simp [hrlen], ?_⟩
    intro j hj1 hj2
    rcases Nat.lt_or_ge j (fd.flatten (pos ++ [i]) ll ps).2.1.length with hj | hj
    · obtain ⟨suffix, node, ha, hb, hcc, hd⟩ := hemitH j hj1 hj
      refine ⟨0, suffix, (fd.flatten (pos ++ [i]) ll ps).1, node, by simp, ?_,
        hb, hcc, ?_⟩
      · have hjp : j < (fd.flatten (pos ++ [i]) ll ps).2.2.length := by omega
        rw [e2, List.getElem?_append_left hjp, ha]
        simp
      · rw [e1, List.getElem?_append_left hj, hd]
    · obtain ⟨m, suffix, fdk, node, hk1, hk2, hk3, hk4, hk5⟩ := hemitR j hj hj2
      refine ⟨m + 1, suffix, fdk, node, by simpa using hk1, ?_, hk3, hk4, hk5⟩
      rw [hk2]
      have harith : i + 1 + m = i + (m + 1) := by omega
      rw [harith]

/-- Unfolding equation for `Commit.flatten`. -/
theorem commit_flatten_eq (c : Commit) (pos : TreePosition) (ll : List TextM)
    (ps : List TreePosition) :
    c.flatten pos ll ps =
      if !c.unfolded then
        ({ c with flat_log_idx := ll.length }, ll ++ [c.render], ps ++ [pos])
      else
        ({ c with flat_log_idx := ll.length, file_diffs :=
            (Commit.flattenFileDiffs c.file_diffs pos 0 (ll ++ [c.render])
              (ps ++ [pos])).1 },
          (Commit.flattenFileDiffs c.file_diffs pos 0 (ll ++ [c.render])
            (ps ++ [pos])).2.1,
          (Commit.flattenFileDiffs c.file_diffs pos 0 (ll ++ [c.render])
            (ps ++ [pos])).2.2) := rfl

/-- Flatten invariant for one commit, assuming loader well-formedness. -/
theorem commit_flatten_spec (c : Commit) (pos : TreePosition)
    (ll : List TextM) (ps : List TreePosition) (hlen : ll.length = ps.length)
    (hwf : c.wf = true) :
    (∃ dll dps, (c.flatten pos ll ps).2.1 = ll ++ dll ∧
      (c.flatten pos ll ps).2.2 = ps ++ dps ∧ dll.length = dps.length) ∧
    ll.length < (c.flatten pos ll ps).2.1.length ∧
    (c.flatten pos ll ps).1.flat_log_idx = ll.length ∧
    (c.flatten pos ll ps).2.2[ll.length]? = some pos ∧
    (∀ j, ll.length ≤ j → j < (c.flatten pos ll ps).2.1.length →
      ∃ suffix node, (c.flatten pos ll ps).2.2[j]? = some (pos ++ suffix) ∧
        (c.flatten pos ll ps).1.resolve suffix = some node ∧
        node.flat_log_idx = j ∧
        (c.flatten pos ll ps).2.1[j]? = some node.render) := by
  rw [commit_flatten_eq]
  have hlt : ll.length < (ll ++ [c.render]).length := by simp
  have hwf2 := hwf
  simp only [Commit.wf, Bool.and_eq_true, List.all_eq_true] at hwf2
  by_cases hu : c.unfolded = true
  · rw [if_neg (show ¬ ((!c.unfolded) = true) by rw [hu]; simp)]
    obtain ⟨⟨dll, dps, e1, e2, elen⟩, hflen, hemit⟩ :=
      flattenFileDiffs_spec c.file_diffs pos 0 (ll ++ [c.render]) (ps ++ [pos])
        (by simp [hlen]) hwf2.2
    have hltp : ll.length < (ps ++ [pos]).length := by simp; omega
    refine ⟨⟨[c.render] ++ dll, [pos] ++ dps,
        by rw [e1, List.append_assoc], by rw [e2, List.append_assoc],
        by simp [elen]⟩,
      by rw [e1]; simp, rfl, ?_, ?_⟩
    · rw [e2, List.getElem?_append_left hltp, hlen, List.getElem?_concat_length]
    · intro j hj1 hj2
      rcases Nat.eq_or_lt_of_le hj1 with hj | hj
      · subst hj
        refine ⟨[], _, ?_, rfl, rfl, ?_⟩
        · rw [e2, List.getElem?_append_left hltp, hlen,
            List.getElem?_concat_length, List.append_nil]
        · rw [e1, List.getElem?_append_left hlt, List.getElem?_concat_length]
          rfl
      · obtain ⟨m, suffix, fdk, node, hk1, hk2, hk3, hk4, hk5⟩ :=
          hemit j (by simp; omega) hj2
        have hld : c.loaded = true := by
          by_contra hld
          rw [Bool.not_eq_true] at hld
          have hempty := hwf2.1
          simp only [hu, hld, Bool.not_true, Bool.false_or,
            Bool.or_eq_true, List.isEmpty_iff] at hempty
          rw [hempty] at hj2
          simp only [Commit.flattenFileDiffs, List.length_append,
            List.length_cons, List.length_nil] at hj2
          omega
        refine ⟨(0 + m) :: suffix, node, hk2, ?_, hk4, hk5⟩
        show (if c.loaded = true then
            ((Commit.flattenFileDiffs c.file_diffs pos 0 (ll ++ [c.render])
              (ps ++ [pos])).1[0 + m]?).bind (fun fdk => fdk.resolve suffix)
          else none) = some node
        rw [if_pos hld, Nat.zero_add, hk1]
        exact hk3
  · have hu2 : c.unfolded = false := by rwa [Bool.not_eq_true] at hu
    rw [if_pos (show (!c.unfolded) = true by rw [hu2]; rfl)]
    refine ⟨⟨[c.render], [pos], rfl, rfl, rfl⟩, by simp, rfl, ?_, ?_⟩
    · show (ps ++ [pos])[ll.length]? = some pos
      rw [hlen, List.getElem?_concat_length]
    · intro j hj1 hj2
      simp only [List.length_append, List.length_cons, List.length_nil] at hj2
      have hj : j = ll.length := by omega
      subst hj
      refine ⟨[], _, ?_, rfl, rfl, ?_⟩
      · show (ps ++ [pos])[ll.length]? = some (pos ++ [])
        rw [hlen, List.getElem?_concat_length, List.append_nil]
      · show (ll ++ [c.render])[ll.length]? = _
        rw [List.getElem?_concat_length]
        rfl

/-- Flatten invariant for one top-level entry. -/
theorem cot_flatten_spec (t : CommitOrText) (pos : TreePosition)
    (ll : List TextM) (ps : List TreePosition) (hlen : ll.length = ps.length)
    (hwf : t.wf = true) :
    (∃ dll dps, (t.flatten pos ll ps).2.1 = ll ++ dll ∧
      (t.flatten pos ll ps).2.2 = ps ++ dps ∧ dll.length = dps.length) ∧
    ll.length < (t.flatten pos ll ps).2.1.length ∧
    CommitOrText.flat_log_idx (t.flatten pos ll ps).1 = ll.length ∧
    (t.flatten pos ll ps).2.2[ll.length]? = some pos ∧
    (∀ j, ll.length ≤ j → j < (t.flatten pos ll ps).2.1.length →
      ∃ suffix node, (t.flatten pos ll ps).2.2[j]? = some (pos ++ suffix) ∧
        CommitOrText.resolve (t.flatten pos ll ps).1 suffix = some node ∧
        node.flat_log_idx = j ∧
        (t.flatten pos ll ps).2.1[j]? = some node.render) := by
  cases t with
  | commit c =>
    have hfe : CommitOrText.flatten (.commit c) pos ll ps =
        (.commit (c.flatten pos ll ps).1, (c.flatten pos ll ps).2.1,
          (c.flatten pos ll ps).2.2) := rfl
    rw [hfe]
    obtain ⟨hext, hlt, hflat, hown, hemit⟩ :=
      commit_flatten_spec c pos ll ps hlen hwf
    exact ⟨hext, hlt, hflat, hown, hemit⟩
  | infoText it =>
    have hfe : CommitOrText.flatten (.infoText it) pos ll ps =
        (.infoText { it with flat_log_idx := ll.length }, ll ++ [it.render],
          ps ++ [pos]) := rfl
    rw [hfe]
    have hlt : ll.length < (ll ++ [it.render]).length := by simp
    refine ⟨⟨[it.render], [pos], rfl, rfl, rfl⟩, by simp, rfl, ?_, ?_⟩
    · show (ps ++ [pos])[ll.length]? = some pos
      rw [hlen, List.getElem?_concat_length]
    · intro j hj1 hj2
      simp only [List.length_append, List.length_cons, List.length_nil] at hj2
      have hj : j = ll.length := by omega
      subst hj
      refine ⟨[], _, ?_, rfl, rfl, ?_⟩
      · show (ps ++ [pos])[ll.length]? = some (pos ++ [])
        rw [hlen, List.getElem?_concat_length, List.append_nil]
      · show (ll ++ [it.render])[ll.length]? = _
        rw [List.getElem?_concat_length]
        rfl

/-- Flatten invariant at the top level: every emitted index resolves
through the flattened entry at some m, and every entry's recorded flat
index points back at the entry's own address `[i + m]`. -/
theorem flattenTops_spec :
    ∀ (ts : List CommitOrText) (i : Nat) (ll : List TextM)
      (ps : List TreePosition), ll.length = ps.length →
      (∀ t ∈ ts, t.wf = true) →
      (∃ dll dps, (JjLog.flattenTops ts i ll ps).2.1 = ll ++ dll ∧
        (JjLog.flattenTops ts i ll ps).2.2 = ps ++ dps ∧
        dll.length = dps.length) ∧
      (JjLog.flattenTops ts i ll ps).1.length = ts.length ∧
      (∀ j, ll.length ≤ j → j < (JjLog.flattenTops ts i ll ps).2.1.length →
        ∃ m suffix t2 node,
          (JjLog.flattenTops ts i ll ps).1[m]? = some t2 ∧
          (JjLog.flattenTops ts i ll ps).2.2[j]? = some ((i + m) :: suffix) ∧
          CommitOrText.resolve t2 suffix = some node ∧
          node.flat_log_idx = j ∧
          (JjLog.flattenTops ts i ll ps).2.1[j]? = some node.render) ∧
      (∀ m, m < ts.length → ∃ t2,
        (JjLog.flattenTops ts i ll ps).1[m]? = some t2 ∧
        ll.length ≤ CommitOrText.flat_log_idx t2 ∧
        CommitOrText.flat_log_idx t2 < (JjLog.flattenTops ts i ll ps).2.1.length ∧
        (JjLog.flattenTops ts i ll ps).2.2[CommitOrText.flat_log_idx t2]? =
          some [i + m]) := by
  intro ts
  induction ts with
  | nil =>
    intro i ll ps hlen _
    refine ⟨⟨[], [], by simp [JjLog.flattenTops], by simp [JjLog.flattenTops],
      rfl⟩, rfl, ?_, ?_⟩
    · intro j hj1 hj2
      simp only [JjLog.flattenTops] at hj2
      omega
    · intro m hm
      simp at hm
  | cons t rest ih =>
    intro i ll ps hlen hw
    obtain ⟨⟨dll1, dps1, f1, f2, flen1⟩, hlt1, hflat1, hown1, hemitH⟩ :=
      cot_flatten_spec t [i] ll ps hlen
        (hw t (List.mem_cons_self t rest))
    have hlen2 : (t.flatten [i] ll ps).2.1.length =
        (t.flatten [i] ll ps).2.2.length := by
      rw [f1, f2]
      simp [hlen, flen1]
    obtain ⟨⟨dll2, dps2, e1, e2, elen2⟩, hrlen, hemitR, hentR⟩ :=
      ih (i + 1) (t.flatten [i] ll ps).2.1 (t.flatten [i] ll ps).2.2 hlen2
        (fun x hx => hw x (List.mem_cons_of_mem _ hx))
    have hfh : JjLog.flattenTops (t :: rest) i ll ps =
        ((t.flatten [i] ll ps).1 ::
          (JjLog.flattenTops rest (i + 1) (t.flatten [i] ll ps).2.1
            (t.flatten [i] ll ps).2.2).1,
          (JjLog.flattenTops rest (i + 1) (t.flatten [i] ll ps).2.1
            (t.flatten [i] ll ps).2.2).2.1,
          (JjLog.flattenTops rest (i + 1) (t.flatten [i] ll ps).2.1
            (t.flatten [i] ll ps).2.2).2.2) := rfl
    rw [hfh]
    obtain ⟨hb1, -⟩ := List.getElem?_eq_some_iff.mp hown1
    refine ⟨⟨dll1 ++ dll2, dps1 ++ dps2, by rw [e1, f1, List.append_assoc],
        by rw [e2, f2, List.append_assoc], by simp [flen1, elen2]⟩,
      by simp [hrlen], ?_, ?_⟩
    · intro j hj1 hj2
      rcases Nat.lt_or_ge j (t.flatten [i] ll ps).2.1.length with hj | hj
      · obtain ⟨suffix, node, ha, hb, hcc, hd⟩ := hemitH j hj1 hj
        refine ⟨0, suffix, (t.flatten [i] ll ps).1, node, by simp, ?_,
          hb, hcc, ?_⟩
        · have hjp : j < (t.flatten [i] ll ps).2.2.length := by omega
          rw [e2, List.getElem?_append_left hjp, ha]
          simp
        · rw [e1, List.getElem?_append_left hj, hd]
      · obtain ⟨m, suffix, t2, node, hk1, hk2, hk3, hk4, hk5⟩ :=
          hemitR j hj hj2
        refine ⟨m + 1, suffix, t2, node, by simpa using hk1, ?_, hk3, hk4, hk5⟩
        rw [hk2]
        have harith : i + 1 + m = i + (m + 1) := by omega
        rw [harith]
    · intro m hm
      cases m with
      | zero =>
        refine ⟨(t.flatten [i] ll ps).1, by simp, by rw [hflat1], ?_, ?_⟩
        · rw [hflat1, e1]
          simp only [List.length_append]
          omega
        · rw [hflat1, e2, List.getElem?_append_left hb1, hown1]
          simp
      | succ m2 =>
        obtain ⟨t2, g1, g2, g3, g4⟩ := hentR m2 (by simpa using hm)
        refine ⟨t2, by simpa using g1, by omega, g3, ?_⟩
        rw [g4]
        have harith : i + 1 + m2 = i + (m2 + 1) := by omega
        rw [harith]

/-- C1: for every well-formed tree and fold-state assignment, the flatten
operation returns an items list and an address list of equal length, and
every index j's address resolves (via `get_tree_node` on the flattened
tree) to a node whose rendering is the item at j and whose stored
`flat_log_idx` is j. -/
theorem c1_flatten_invariant (log : JjLog) (hwf : log.wf = true) :
    (log.flatten_log).2.1.length = (log.flatten_log).2.2.length ∧
    (∀ j, j < (log.flatten_log).2.1.length →
      ∃ pos node, (log.flatten_log).2.2[j]? = some pos ∧
        (log.flatten_log).1.get_tree_node pos = some node ∧
        node.flat_log_idx = j ∧
        (log.flatten_log).2.1[j]? = some node.render) := by
  have hwl : ∀ t ∈ log.log_tree, t.wf = true := by
    rw [JjLog.wf, List.all_eq_true] at hwf
    exact hwf
  obtain ⟨⟨dll, dps, e1, e2, elen⟩, hlen, hemit, -⟩ :=
    flattenTops_spec log.log_tree 0 [] [] rfl hwl
  have hfe : log.flatten_log =
      (JjLog.mk (JjLog.flattenTops log.log_tree 0 [] []).1,
        (JjLog.flattenTops log.log_tree 0 [] []).2.1,
        (JjLog.flattenTops log.log_tree 0 [] []).2.2) := rfl
  rw [hfe]
  constructor
  · rw [e1, e2]
    simpa using elen
  · intro j hj2
    obtain ⟨m, suffix, t2, node, hk1, hk2, hk3, hk4, hk5⟩ :=
      hemit j (by simp) hj2
    refine ⟨(0 + m) :: suffix, node, hk2, ?_, hk4, hk5⟩
    show ((JjLog.flattenTops log.log_tree 0 [] []).1[0 + m]?).bind
      (fun tt => CommitOrText.resolve tt suffix) = some node
    rw [Nat.zero_add, hk1]
    exact hk3

/-- Witness for C1 at the concrete example log. -/
theorem c1_flatten_invariant_witness :
    exLogRaw.wf = true ∧
    (exLogRaw.flatten_log).2.1.length = (exLogRaw.flatten_log).2.2.length :=
  ⟨by decide, (c1_flatten_invariant exLogRaw (by decide)).1⟩

/-- Next-sibling from a top-level address clamps against the top-level
entry list. -/
theorem select_next_sibling_top (log : JjLog) (m : Nat) :
    Model.select_next_sibling_node log [m] =
      (log.log_tree[min (m + 1) (log.log_tree.length - 1)]?).map
        CommitOrText.flat_log_idx := rfl

/-- Next-sibling from the last child of a branch recurses one level up,
treating the parent as the new subject. -/
theorem select_next_sibling_chain (log : JjLog) (pos : TreePosition)
    (pn : LogNode) (h1 : 1 < pos.length) (h2 : pos.length ≤ DIFF_HUNK_IDX + 1)
    (hpar : log.get_tree_node pos.dropLast = some pn)
    (hlast : pos.getLastD 0 = pn.children.length - 1) :
    Model.select_next_sibling_node log pos =
      Model.select_next_sibling_node log pos.dropLast := by
  have h4 : ¬ pos.length = DIFF_HUNK_LINE_IDX + 1 := by
    simp only [DIFF_HUNK_IDX] at h2
    simp only [DIFF_HUNK_LINE_IDX]
    omega
  have h4b : ¬ pos.dropLast.length = DIFF_HUNK_LINE_IDX + 1 := by
    simp only [List.length_dropLast, DIFF_HUNK_LINE_IDX]
    simp only [DIFF_HUNK_IDX] at h2
    omega
  simp only [Model.select_next_sibling_node, if_neg h4, if_neg h4b]
  rw [nextSibGo, nextSibGo]
  have hfuel : pos.dropLast.length + 1 = pos.length := by
    simp only [List.length_dropLast]
    omega
  rw [hfuel]
  conv_lhs => rw [nextSibGoFuel]
  simp only [if_pos h1, hpar, hlast, if_pos rfl, if_true]

/-- One next-sibling message from top-level entry m lands on the entry at
`min (m + 1) (N - 1)`. -/
theorem next_sibling_step_top (log : JjLog) (hwf : log.wf = true) (m : Nat)
    (t2 : CommitOrText) (hm : m < log.log_tree.length)
    (ht : (log.flatten_log).1.log_tree[m]? = some t2) :
    ∃ t3, (log.flatten_log).1.log_tree[min (m + 1)
        (log.log_tree.length - 1)]? = some t3 ∧
      Model.select_current_next_sibling_node (log.flatten_log).1
        (log.flatten_log).2.2 (CommitOrText.flat_log_idx t2) =
        some (CommitOrText.flat_log_idx t3) := by
  have hwl : ∀ t ∈ log.log_tree, t.wf = true := by
    rw [JjLog.wf, List.all_eq_true] at hwf
    exact hwf
  obtain ⟨⟨dll, dps, e1, e2, elen⟩, hlen, hemit, hent⟩ :=
    flattenTops_spec log.log_tree 0 [] [] rfl hwl
  have htf : (log.flatten_log).1.log_tree =
      (JjLog.flattenTops log.log_tree 0 [] []).1 := rfl
  rw [htf] at ht
  obtain ⟨t2b, k1, k2, k3, k4⟩ := hent m hm
  rw [k1] at ht
  have ht2 : t2b = t2 := Option.some.inj ht
  subst ht2
  have hmin : min (m + 1) (log.log_tree.length - 1) < log.log_tree.length := by
    omega
  obtain ⟨t3, j1, j2, j3, j4⟩ := hent (min (m + 1) (log.log_tree.length - 1)) hmin
  refine ⟨t3, by rw [htf]; exact j1, ?_⟩
  have hps : (log.flatten_log).2.2 =
      (JjLog.flattenTops log.log_tree 0 [] []).2.2 := rfl
  simp only [Model.select_current_next_sibling_node, hps, k4, Nat.zero_add,
    Option.some_bind, select_next_sibling_top, htf, hlen]
  rw [j1]
  rfl

/-- Iterating next-sibling k times from top-level entry m lands on entry
`min (m + k) (N - 1)`. -/
theorem iter_next_sibling_top (log : JjLog) (hwf : log.wf = true) :
    ∀ (k m : Nat) (t2 : CommitOrText), m < log.log_tree.length →
      (log.flatten_log).1.log_tree[m]? = some t2 →
      ∃ t3, (log.flatten_log).1.log_tree[min (m + k)
          (log.log_tree.length - 1)]? = some t3 ∧
        iterNextSibling (log.flatten_log).1 (log.flatten_log).2.2 k
          (CommitOrText.flat_log_idx t2) = some (CommitOrText.flat_log_idx t3) := by
  intro k
  induction k with
  | zero =>
    intro m t2 hm ht
    refine ⟨t2, ?_, rfl⟩
    rw [Nat.add_zero, Nat.min_eq_left (by omega)]
    exact ht
  | succ k2 ih =>
    intro m t2 hm ht
    obtain ⟨t3, j1, j2⟩ := next_sibling_step_top log hwf m t2 hm ht
    have hm2 : min (m + 1) (log.log_tree.length - 1) < log.log_tree.length := by
      omega
    obtain ⟨t4, g1, g2⟩ := ih (min (m + 1) (log.log_tree.length - 1)) t3 hm2 j1
    have hmm : min (min (m + 1) (log.log_tree.length - 1) + k2)
        (log.log_tree.length - 1) = min (m + (k2 + 1))
        (log.log_tree.length - 1) := by omega
    rw [hmm] at g1
    refine ⟨t4, g1, ?_⟩
    show (Model.select_current_next_sibling_node (log.flatten_log).1
        (log.flatten_log).2.2 (CommitOrText.flat_log_idx t2)).bind
      (iterNextSibling (log.flatten_log).1 (log.flatten_log).2.2 k2) = _
    rw [j2]
    exact g2

/-- C6: on a well-formed tree with N top-level entries, applying "next
sibling" from the first top-level entry N-1 times reaches the last
top-level entry, and applying it once more is a no-op (clamped at the
root, no wrap-around); and from the last child of any branch the request
recurses one level up, treating the parent as the new subject. -/
theorem c6_next_sibling_chain (log : JjLog) (hwf : log.wf = true)
    (t0 tN : CommitOrText) (hN : 0 < log.log_tree.length)
    (h0 : (log.flatten_log).1.log_tree[0]? = some t0)
    (hNe : (log.flatten_log).1.log_tree[log.log_tree.length - 1]? = some tN) :
    iterNextSibling (log.flatten_log).1 (log.flatten_log).2.2
      (log.log_tree.length - 1) (CommitOrText.flat_log_idx t0) =
      some (CommitOrText.flat_log_idx tN) ∧
    Model.select_current_next_sibling_node (log.flatten_log).1
      (log.flatten_log).2.2 (CommitOrText.flat_log_idx tN) =
      some (CommitOrText.flat_log_idx tN) ∧
    (∀ (pos : TreePosition) (pn : LogNode), 1 < pos.length →
      pos.length ≤ DIFF_HUNK_IDX + 1 →
      log.get_tree_node pos.dropLast = some pn →
      pos.getLastD 0 = pn.children.length - 1 →
      Model.select_next_sibling_node log pos =
        Model.select_next_sibling_node log pos.dropLast) := by
  refine ⟨?_, ?_, fun pos pn a b cc d =>
    select_next_sibling_chain log pos pn a b cc d⟩
  · obtain ⟨t3, g1, g2⟩ :=
      iter_next_sibling_top log hwf (log.log_tree.length - 1) 0 t0 hN h0
    rw [Nat.zero_add, Nat.min_self] at g1
    rw [hNe] at g1
    have ht3 : t3 = tN := Option.some.inj g1.symm
    subst ht3
    exact g2
  · obtain ⟨t3, g1, g2⟩ := next_sibling_step_top log hwf
      (log.log_tree.length - 1) tN (by omega) hNe
    have hmin : min (log.log_tree.length - 1 + 1) (log.log_tree.length - 1) =
        log.log_tree.length - 1 := by omega
    rw [hmin, hNe] at g1
    have ht3 : t3 = tN := Option.some.inj g1.symm
    subst ht3
    exact g2

/-- A two-entry, all-folded log for the C6 witness. -/
def c6log : JjLog :=
  JjLog.mk [.commit (exCommit "@" false false []),
    .commit (exCommit "x" false false [])]

/-- The second entry of `c6log` after the flatten pass. -/
def c6t1 : CommitOrText :=
  .commit { exCommit "x" false false [] with flat_log_idx := 1 }

/-- Witness for C6: on the two-entry log, one next-sibling step from the
first entry reaches the last, and another step is a no-op. -/
theorem c6_next_sibling_chain_witness :
    c6log.wf = true ∧
    iterNextSibling (c6log.flatten_log).1 (c6log.flatten_log).2.2 1 0 =
      some 1 ∧
    Model.select_current_next_sibling_node (c6log.flatten_log).1
      (c6log.flatten_log).2.2 1 = some 1 :=
  ⟨by decide,
    (c6_next_sibling_chain c6log (by decide)
      (.commit (exCommit "@" false false [])) c6t1 (by decide)
      (by rfl) (by rfl)).1,
    (c6_next_sibling_chain c6log (by decide)
      (.commit (exCommit "@" false false [])) c6t1 (by decide)
      (by rfl) (by rfl)).2.1⟩

/-- The condition under which `Commit::toggle_fold` consults the loader:
the flip makes the node unfolded (`!c1.unfolded` fails) and its children
are not yet loaded (`!c1.loaded` holds). -/
def Commit.load_on_toggle (c : Commit) : Bool :=
  !c.unfolded && !c.loaded

/-- Toggling an already-loaded commit twice restores it exactly. -/
theorem commit_toggle_twice_loaded (c : Commit) (fds : List FileDiff)
    (hl : c.loaded = true) :
    ((c.toggle_fold (some fds)).1.toggle_fold (some fds)).1 = c := by
  rcases c with ⟨a1, a2, a3, a4, a5, a6, a7, a8, a9, u, ld, fdl, fi⟩
  simp only at hl
  subst hl
  cases u <;> simp [Commit.toggle_fold]

/-- Toggling a folded, unloaded commit twice loads its children once and
returns the fold state to folded. -/
theorem commit_toggle_twice_unloaded (c : Commit) (fds : List FileDiff)
    (hu : c.unfolded = false) (hl : c.loaded = false) :
    ((c.toggle_fold (some fds)).1.toggle_fold (some fds)).1 =
      { c with loaded := true, file_diffs := fds } := by
  rcases c with ⟨a1, a2, a3, a4, a5, a6, a7, a8, a9, u, ld, fdl, fi⟩
  simp only at hu hl
  subst hu
  subst hl
  simp [Commit.toggle_fold]

/-- Toggling an already-loaded file diff twice restores it exactly. -/
theorem fd_toggle_twice_loaded (fd : FileDiff) (hs : List DiffHunk)
    (hl : fd.loaded = true) :
    ((fd.toggle_fold (some hs)).1.toggle_fold (some hs)).1 = fd := by
  rcases fd with ⟨a1, a2, a3, a4, a5, u, ld, dh, fi⟩
  simp only at hl
  subst hl
  cases u <;> simp [FileDiff.toggle_fold]

/-- Toggling a folded, unloaded file diff twice loads its hunks once and
returns the fold state to folded. -/
theorem fd_toggle_twice_unloaded (fd : FileDiff) (hs : List DiffHunk)
    (hu : fd.unfolded = false) (hl : fd.loaded = false) :
    ((fd.toggle_fold (some hs)).1.toggle_fold (some hs)).1 =
      { fd with loaded := true, diff_hunks := hs } := by
  rcases fd with ⟨a1, a2, a3, a4, a5, u, ld, dh, fi⟩
  simp only at hu hl
  subst hu
  subst hl
  simp [FileDiff.toggle_fold]

/-- A double toggle leaves the commit's flatten output unchanged. -/
theorem commit_toggle_twice_flatten_out (c : Commit) (fds : List FileDiff)
    (hinv : c.wfLoaded = true) (pos : TreePosition) (ll : List TextM)
    (ps : List TreePosition) :
    (Commit.flatten ((c.toggle_fold (some fds)).1.toggle_fold (some fds)).1
      pos ll ps).2 = (Commit.flatten c pos ll ps).2 := by
  by_cases hl : c.loaded = true
  · rw [commit_toggle_twice_loaded c fds hl]
  · have hl2 : c.loaded = false := by rwa [Bool.not_eq_true] at hl
    have hu : c.unfolded = false := by
      simp only [Commit.wfLoaded, hl2, Bool.or_false, Bool.not_eq_eq_eq_not,
        Bool.not_true] at hinv
      exact hinv
    rw [commit_toggle_twice_unloaded c fds hu hl2]
    rw [commit_flatten_eq, commit_flatten_eq]
    rw [if_pos (show (!({ c with loaded := true, file_diffs := fds } :
        Commit).unfolded) = true by show (!c.unfolded) = true; rw [hu]; rfl)]
    rw [if_pos (show (!c.unfolded) = true by rw [hu]; rfl)]
    rfl

/-- The invariant maintained by successful toggles at the file-diff
level: once unfolded, the hunks have been loaded. -/
def FileDiff.wfLoaded (fd : FileDiff) : Bool :=
  !fd.unfolded || fd.loaded

/-- A double toggle leaves the file diff's flatten output unchanged. -/
theorem fd_toggle_twice_flatten_out (fd : FileDiff) (hs : List DiffHunk)
    (hinv : fd.wfLoaded = true) (pos : TreePosition) (ll : List TextM)
    (ps : List TreePosition) :
    (FileDiff.flatten ((fd.toggle_fold (some hs)).1.toggle_fold (some hs)).1
      pos ll ps).2 = (FileDiff.flatten fd pos ll ps).2 := by
  by_cases hl : fd.loaded = true
  · rw [fd_toggle_twice_loaded fd hs hl]
  · have hl2 : fd.loaded = false := by rwa [Bool.not_eq_true] at hl
    have hu : fd.unfolded = false := by
      simp only [FileDiff.wfLoaded, hl2, Bool.or_false, Bool.not_eq_eq_eq_not,
        Bool.not_true] at hinv
      exact hinv
    rw [fd_toggle_twice_unloaded fd hs hu hl2]
    rw [fd_flatten_eq, fd_flatten_eq]
    rw [if_pos (show (!({ fd with loaded := true, diff_hunks := hs } :
        FileDiff).unfolded) = true by show (!fd.unfolded) = true; rw [hu]; rfl)]
    rw [if_pos (show (!fd.unfolded) = true by rw [hu]; rfl)]
    rfl

/-- Replacing one top-level entry by an entry with identical flatten
output leaves the whole flatten output unchanged. -/
theorem flattenTops_congr :
    ∀ (ts : List CommitOrText) (k : Nat) (t t2 : CommitOrText),
      ts[k]? = some t →
      (∀ pos ll ps, (CommitOrText.flatten t2 pos ll ps).2 =
        (CommitOrText.flatten t pos ll ps).2) →
      ∀ (i : Nat) (ll : List TextM) (ps : List TreePosition),
        (JjLog.flattenTops (ts.set k t2) i ll ps).2 =
        (JjLog.flattenTops ts i ll ps).2 := by
  intro ts
  induction ts with
  | nil =>
    intro k t t2 hk
    simp at hk
  | cons a rest ih =>
    intro k t t2 hk hout i ll ps
    cases k with
    | zero =>
      have ha : a = t := by simpa using hk
      subst ha
      show (JjLog.flattenTops rest (i + 1) (t2.flatten [i] ll ps).2.1
          (t2.flatten [i] ll ps).2.2).2 =
        (JjLog.flattenTops rest (i + 1) (a.flatten [i] ll ps).2.1
          (a.flatten [i] ll ps).2.2).2
      have h21 := congrArg Prod.fst (hout [i] ll ps)
      have h22 := congrArg Prod.snd (hout [i] ll ps)
      simp only at h21 h22
      rw [h21, h22]
    | succ k2 =>
      show (JjLog.flattenTops (rest.set k2 t2) (i + 1)
          (a.flatten [i] ll ps).2.1 (a.flatten [i] ll ps).2.2).2 =
        (JjLog.flattenTops rest (i + 1) (a.flatten [i] ll ps).2.1
          (a.flatten [i] ll ps).2.2).2
      exact ih k2 t t2 (by simpa using hk) hout (i + 1) _ _

/-- C8: toggling the fold state of a node twice restores its fold state
(and, when its children were already loaded, its entire state) and yields
an identical flattened output; the loader is consulted at most once — on
the first folded-to-unfolded transition — the second toggle never loads,
and the loaded flag is memoized. -/
theorem c8_fold_idempotence (log : JjLog) (k : Nat) (c : Commit)
    (fds : List FileDiff) (fd : FileDiff) (hs : List DiffHunk)
    (hk : log.log_tree[k]? = some (.commit c))
    (hc : c.wfLoaded = true) (hf : fd.wfLoaded = true) :
    ((c.toggle_fold (some fds)).1.toggle_fold (some fds)).1.unfolded =
      c.unfolded ∧
    (c.loaded = true →
      ((c.toggle_fold (some fds)).1.toggle_fold (some fds)).1 = c) ∧
    ((JjLog.mk (log.log_tree.set k (.commit
        ((c.toggle_fold (some fds)).1.toggle_fold (some fds)).1))).flatten_log).2 =
      (log.flatten_log).2 ∧
    ((c.toggle_fold none).2 = false ↔ c.load_on_toggle = true) ∧
    (c.load_on_toggle = true → c.unfolded = false ∧ c.loaded = false) ∧
    Commit.load_on_toggle (c.toggle_fold (some fds)).1 = false ∧
    ((c.toggle_fold (some fds)).1.toggle_fold (some fds)).1.loaded =
      (c.loaded || c.load_on_toggle) ∧
    ((fd.toggle_fold (some hs)).1.toggle_fold (some hs)).1.unfolded =
      fd.unfolded ∧
    (fd.loaded = true →
      ((fd.toggle_fold (some hs)).1.toggle_fold (some hs)).1 = fd) ∧
    (∀ (pos : TreePosition) (ll : List TextM) (ps : List TreePosition),
      (FileDiff.flatten ((fd.toggle_fold (some hs)).1.toggle_fold
        (some hs)).1 pos ll ps).2 = (fd.flatten pos ll ps).2) := by
  have hcu : c.loaded = false → c.unfolded = false := by
    intro hl
    simp only [Commit.wfLoaded, hl, Bool.or_false, Bool.not_eq_eq_eq_not,
      Bool.not_true] at hc
    exact hc
  refine ⟨?_, ?_, ?_, ?_, ?_, ?_, ?_, ?_, ?_, ?_⟩
  · by_cases hl : c.loaded = true
    · rw [commit_toggle_twice_loaded c fds hl]
    · have hl2 : c.loaded = false := by rwa [Bool.not_eq_true] at hl
      rw [commit_toggle_twice_unloaded c fds (hcu hl2) hl2]
  · intro hl
    exact commit_toggle_twice_loaded c fds hl
  · have hout : ∀ (pos : TreePosition) (ll : List TextM)
        (ps : List TreePosition),
        (CommitOrText.flatten (.commit ((c.toggle_fold (some fds)).1.toggle_fold
          (some fds)).1) pos ll ps).2 =
        (CommitOrText.flatten (.commit c) pos ll ps).2 := by
      intro pos ll ps
      show (Commit.flatten ((c.toggle_fold (some fds)).1.toggle_fold
        (some fds)).1 pos ll ps).2 = (Commit.flatten c pos ll ps).2
      exact commit_toggle_twice_flatten_out c fds hc pos ll ps
    show (JjLog.flattenTops (log.log_tree.set k (.commit _)) 0 [] []).2 =
      (JjLog.flattenTops log.log_tree 0 [] []).2
    exact flattenTops_congr log.log_tree k (.commit c) _ hk hout 0 [] []
  · rcases c with ⟨a1, a2, a3, a4, a5, a6, a7, a8, a9, u, ld, fdl, fi⟩
    cases u <;> cases ld <;>
      simp [Commit.toggle_fold, Commit.load_on_toggle]
  · intro h
    simp only [Commit.load_on_toggle, Bool.and_eq_true,
      Bool.not_eq_true'] at h
    exact h
  · rcases c with ⟨a1, a2, a3, a4, a5, a6, a7, a8, a9, u, ld, fdl, fi⟩
    simp only [Commit.wfLoaded] at hc
    cases u <;> cases ld <;>
      simp_all [Commit.toggle_fold, Commit.load_on_toggle]
  · rcases c with ⟨a1, a2, a3, a4, a5, a6, a7, a8, a9, u, ld, fdl, fi⟩
    simp only [Commit.wfLoaded] at hc
    cases u <;> cases ld <;>
      simp_all [Commit.toggle_fold, Commit.load_on_toggle]
  · by_cases hl : fd.loaded = true
    · rw [fd_toggle_twice_loaded fd hs hl]
    · have hl2 : fd.loaded = false := by rwa [Bool.not_eq_true] at hl
      have hfu : fd.unfolded = false := by
        simp only [FileDiff.wfLoaded, hl2, Bool.or_false,
          Bool.not_eq_eq_eq_not, Bool.not_true] at hf
        exact hf
      rw [fd_toggle_twice_unloaded fd hs hfu hl2]
  · intro hl
    exact fd_toggle_twice_loaded fd hs hl
  · intro pos ll ps
    exact fd_toggle_twice_flatten_out fd hs hf pos ll ps

/-- Witness for C8 at a concrete folded, unloaded commit of the two-entry
log. -/
theorem c8_fold_idempotence_witness :
    (exCommit "@" false false []).wfLoaded = true ∧
    (exFileDiff []).wfLoaded = true ∧
    c6log.log_tree[0]? = some (.commit (exCommit "@" false false [])) ∧
    (((exCommit "@" false false []).toggle_fold (some [])).1.toggle_fold
      (some [])).1.unfolded = (exCommit "@" false false []).unfolded :=
  ⟨by decide, by decide, by rfl,
    (c8_fold_idempotence c6log 0 (exCommit "@" false false []) []
      (exFileDiff []) [] (by rfl) (by decide) (by decide)).1⟩
